import Mathlib

/-! Verification of the cluster-tomography core of the `active_tomography`
repository: the n-dimensional Hoshen-Kopelman labeler (`hoshen_kopelman_nd`),
its union-find substrate (`find`), the bond extractor (`get_bonds_nd`), the
2d gap-size statistics (`get_gapstat_2d`) and the spatial tomography
orchestration (`analysis`).

Numpy arrays are embedded as flat `List` values in C (row-major) order:
an array of shape `sizes` stores the element at coordinate tuple
`(c_0, ..., c_{d-1})` at flat position `Σ c_k * stride_k` with
`stride_k = Π_{j>k} sizes_j`; this is exactly the index map
`np.dot(coords, convert_vec)` used by the source itself.  The Python
`while` loop inside `find` is embedded with an explicit fuel parameter; the
fuel `labels.length` used at every call site is justified by the acyclicity
invariant proved below (a chain that reaches a root reaches it in fewer
than `labels.length` steps), and a `none` result corresponds to a Python
execution that diverges or indexes out of range. -/

namespace AT

/-- One step of the label-chasing loop `x = labels[x]` (total version used
by the specification relations; in-range behaviour agrees with the code). -/
def step (labels : List Nat) (x : Nat) : Nat := labels.getD x x

/-- Iteration of `step`, `k` times. -/
def iter (labels : List Nat) : Nat → Nat → Nat
  | 0, x => x
  | k+1, x => iter labels k (step labels x)

/-- `x` is a fixed point of `labels`, i.e. a union-find root. -/
def IsRoot (labels : List Nat) (x : Nat) : Prop := step labels x = x

instance (labels : List Nat) (x : Nat) : Decidable (IsRoot labels x) :=
  inferInstanceAs (Decidable (_ = _))

/-- The chain `x, labels[x], labels[labels[x]], ...` reaches the root `r`. -/
def Reaches (labels : List Nat) (x r : Nat) : Prop :=
  ∃ k, iter labels k x = r ∧ IsRoot labels r

/-- `x` and `y` resolve to a common root. -/
def sameRoot (labels : List Nat) (x y : Nat) : Prop :=
  ∃ r, Reaches labels x r ∧ Reaches labels y r

/-- Embedding of `find(x, labels)` from `cluster_functions.py`:
follow `labels[x]` until a fixed point and return it.  The source performs
no writes to `labels`, so the embedding is a pure function.  `fuel` bounds
the number of loop iterations; an out-of-range index yields `none`. -/
def find (labels : List Nat) : Nat → Nat → Option Nat
  | 0, _ => none
  | fuel+1, x =>
    match labels[x]? with
    | none => none
    | some y => if y = x then some x else find labels fuel y

/-- Truncating dot product of two lists, `np.dot` on equal-length int
vectors. -/
def dotL : List Nat → List Nat → Nat
  | [], _ => 0
  | _ :: _, [] => 0
  | a :: as, b :: bs => a * b + dotL as bs

/-- The `convert_vec` of `hoshen_kopelman_nd`:
`[np.prod(sizes[k+1:]) for k in range(d)]`. -/
def convertVec (sizes : List Nat) (d : Nat) : List Nat :=
  (List.range d).map (fun k => (sizes.drop (k+1)).prod)

/-- Cartesian product of a list of lists, in lexicographic order:
`itertools.product(*lists)`. -/
def prodLists : List (List Nat) → List (List Nat)
  | [] => [[]]
  | l :: rest => l.flatMap (fun c => (prodLists rest).map (fun cs => c :: cs))

/-- All coordinate tuples of the lattice, in the order enumerated by
`product(*[range(size) for size in sizes])`. -/
def coordsList (sizes : List Nat) : List (List Nat) := prodLists (sizes.map List.range)

/-- Row-major flat index of a coordinate tuple in an array of shape
`sizes`; numpy's own layout, and equal to `np.dot(coords, convert_vec)`. -/
def flatIdx (sizes : List Nat) (c : List Nat) : Nat := dotL c (convertVec sizes sizes.length)

/-- One iteration of the cross-term loop `for m in range(n+1, d)` of
`hoshen_kopelman_nd`: if axis `m`'s component is nonzero and its bond is
active, set `labels[find(idx_site - convert_vec[m])] = find(idx_site)`. -/
def crossStep (bonds : List (List Int)) (sizes cv c : List Nat) (site : Nat)
    (labels : List Nat) (m : Nat) : Option (List Nat) :=
  if c.getD m 0 ≠ 0 then
    if (bonds.getD m []).getD (flatIdx sizes c) 0 ≠ 0 then do
      let r2 ← find labels labels.length site
      let r1 ← find labels labels.length (site - cv.getD m 0)
      pure (labels.set r1 r2)
    else pure labels
  else pure labels

/-- The axis loop `for n in range(d)` of the main sweep, for one coordinate
tuple `c`; `rem` is the number of axes still to scan (`d - n`).  Note the
`break` of the source sits inside `if bonds[n][coords]:`, so the scan stops
only after an axis whose component is nonzero AND whose bond is active has
been processed; a nonzero-component axis with an inactive bond lets the
scan continue. -/
def axisScanAux (bonds : List (List Int)) (sizes cv : List Nat) (d : Nat) (c : List Nat) :
    Nat → Nat → List Nat → Option (List Nat)
  | 0, _, labels => some labels
  | rem+1, n, labels =>
    if c.getD n 0 ≠ 0 then
      if (bonds.getD n []).getD (flatIdx sizes c) 0 ≠ 0 then do
        let site := dotL c cv
        let r ← find labels labels.length (site - cv.getD n 0)
        (List.range' (n+1) (d - (n+1))).foldlM (crossStep bonds sizes cv c site) (labels.set site r)
      else axisScanAux bonds sizes cv d c rem (n+1) labels
    else axisScanAux bonds sizes cv d c rem (n+1) labels

/-- One site visit of the main sweep of `hoshen_kopelman_nd`. -/
def axisScan (bonds : List (List Int)) (sizes cv : List Nat) (d : Nat)
    (c labels : List Nat) : Option (List Nat) :=
  axisScanAux bonds sizes cv d c d 0 labels

/-- The coordinate slice `positions` used by the boundary pass for axis `n`:
full ranges on the other axes, component `0` on axis `n`. -/
def bcPositions (sizes : List Nat) (n : Nat) : List (List Nat) :=
  prodLists ((sizes.take n).map List.range ++ [[0]] ++ ((sizes.drop (n+1)).map List.range))

/-- One wraparound union of the boundary pass:
`labels[find(idx_neighbor)] = labels[find(idx_site)]` with
`idx_neighbor = idx_site + convert_vec[n]*(sizes[n]-1)`. -/
def bcStep (bonds : List (List Int)) (sizes cv : List Nat) (n : Nat)
    (labels : List Nat) (c : List Nat) : Option (List Nat) :=
  if (bonds.getD n []).getD (flatIdx sizes c) 0 ≠ 0 then do
    let site := dotL c cv
    let rs ← find labels labels.length site
    let rn ← find labels labels.length (site + cv.getD n 0 * (sizes.getD n 0 - 1))
    pure (labels.set rn (step labels rs))
  else pure labels

/-- The boundary-condition pass of `hoshen_kopelman_nd`: for every axis
with periodic boundary conditions, union across the axis-`n` boundary. -/
def bcPass (bonds : List (List Int)) (sizes cv : List Nat) (d : Nat) (bc : List Char)
    (labels : List Nat) : Option (List Nat) :=
  (List.range d).foldlM (fun labels n =>
    if bc.getD n 'o' = 'p' then (bcPositions sizes n).foldlM (bcStep bonds sizes cv n) labels
    else some labels) labels

/-- The canonicalization pass: `labels[idx] = int(find(idx, labels))` for
every index in order. -/
def canonPass (labels : List Nat) : Option (List Nat) :=
  (List.range labels.length).foldlM (fun labs i => do
    let r ← find labs labs.length i
    pure (labs.set i r)) labels

/-- Insertion into a sorted list, used to model `np.unique`'s sorting. -/
def insertSorted (x : Nat) : List Nat → List Nat
  | [] => [x]
  | y :: ys => if x ≤ y then x :: y :: ys else y :: insertSorted x ys

/-- Insertion sort on naturals. -/
def sortNat (l : List Nat) : List Nat := l.foldr insertSorted []

/-- Embedding of `np.unique(labels, return_inverse=True)[1]`: replace every
entry by its rank among the sorted distinct values. -/
def uniqueInverse (l : List Nat) : List Nat :=
  l.map (fun x => (sortNat l).dedup.indexOf x)

/-- Embedding of `hoshen_kopelman_nd(bonds, sizes, d, bc, reduce)` from
`cluster_functions.py`.  `bonds` is the list of connectivity arrays (flat,
row-major), `bc` the boundary-condition string as a list of characters.
The result is `none` exactly when some internal `find` would diverge or
index out of range in Python. -/
def hoshen_kopelman_nd (bonds : List (List Int)) (sizes : List Nat) (d : Nat)
    (bc : List Char) (reduce : Bool) : Option (List Nat) := do
  let labels := List.range sizes.prod
  let cv := convertVec sizes d
  let l1 ← (coordsList sizes).foldlM (fun labels c => axisScan bonds sizes cv d c labels) labels
  let l2 ← bcPass bonds sizes cv d bc l1
  let l3 ← canonPass l2
  pure (if reduce then uniqueInverse l3 else l3)

/-- The two connectivity rules accepted by `get_bonds_nd` (any other value
of `bond_type` makes the Python function raise `NameError`). -/
inductive BondType
  | one
  | all

/-- The coordinate tuple read by `np.roll(state, 1, axis=n)` at `c`:
component `n` decremented by one, wrapping at the boundary. -/
def rollCoord (sizes : List Nat) (n : Nat) (c : List Nat) : List Nat :=
  c.set n ((c.getD n 0 + (sizes.getD n 0 - 1)) % sizes.getD n 0)

/-- Embedding of `np.roll(state, 1, axis=n)` on an array of shape `sizes`. -/
def npRoll (state : List Int) (sizes : List Nat) (n : Nat) : List Int :=
  (coordsList sizes).map (fun c => state.getD (flatIdx sizes (rollCoord sizes n c)) 0)

/-- Embedding of `get_bonds_nd(state, d, bond_type)` from
`cluster_functions.py`; booleans of the `'all'` rule are embedded as `0`/`1`
values (numpy truthiness).  `sizes` is the shape of `state`, implicit in
the numpy original. -/
def get_bonds_nd (state : List Int) (sizes : List Nat) (d : Nat)
    (bond_type : BondType) : List (List Int) :=
  let rolls := (List.range d).map (fun n => npRoll state sizes n)
  match bond_type with
  | .all => rolls.map (fun roll => List.zipWith (fun a b => if a = b then (1 : Int) else 0) roll state)
  | .one => rolls.map (fun roll => List.zipWith (· * ·) roll state)

/-- Insert-or-update into an association list, preserving first-insertion
key order: the behaviour of `dict[k] = v` under Python's ordered dicts. -/
def upsert (k v : Nat) (m : List (Nat × Nat)) : List (Nat × Nat) :=
  if (m.lookup k).isSome then m.map (fun kv => if kv.1 = k then (k, v) else kv)
  else m ++ [(k, v)]

/-- One step of the inner scan of `get_gapstat_2d` over `enumerate(line_labels)`,
carrying `(f, first_seen, last_seen)`.  The default `bad=np.nan` of the
source compares unequal to every integer label, which is embedded as
`bad = none`. -/
def lineStep (bad : Option Nat)
    (st : List Nat × List (Nat × Nat) × List (Nat × Nat)) (p : Nat × Nat) :
    List Nat × List (Nat × Nat) × List (Nat × Nat) :=
  let f := st.1
  let fs := st.2.1
  let ls := st.2.2
  let i := p.1
  let lab := p.2
  if bad ≠ some lab then
    match ls.lookup lab with
    | some last => (f.set (i - last) (f.getD (i - last) 0 + 1), fs, upsert lab i ls)
    | none => (f, upsert lab i fs, upsert lab i ls)
  else (f, fs, ls)

/-- Processing of one row of the label grid by `get_gapstat_2d`, including
the periodic wraparound events. -/
def processRow (size : Nat) (bad : Option Nat) (periodic : Bool)
    (f : List Nat) (line : List Nat) : List Nat :=
  let res := line.enum.foldl (lineStep bad) (f, [], [])
  let f1 := res.1
  let fs := res.2.1
  let ls := res.2.2
  if periodic then
    ls.foldl (fun f kv =>
      let gap := size + (fs.lookup kv.1).getD 0 - kv.2
      f.set (gap % size) (f.getD (gap % size) 0 + 1)) f1
  else f1

/-- The row `labels[row*size : (row+1)*size]` of the flat label grid. -/
def gridRow (labels : List Nat) (size row : Nat) : List Nat :=
  (labels.drop (row * size)).take size

/-- Embedding of `np.transpose(labels.reshape([size,size])).ravel()`. -/
def transposeGrid (labels : List Nat) (size : Nat) : List Nat :=
  (List.range (size * size)).map (fun p => labels.getD ((p % size) * size + p / size) 0)

/-- One full scan direction of `get_gapstat_2d`: all `size` rows. -/
def gapstatPass (labels : List Nat) (size : Nat) (bad : Option Nat)
    (periodic : Bool) (f : List Nat) : List Nat :=
  (List.range size).foldl (fun f row => processRow size bad periodic f (gridRow labels size row)) f

/-- The accumulation loop of `get_gapstat_2d`: the integer histogram `f`
(whose float increments are exact) and the normalization `norm` at the end
of the `while` loop. -/
def gapstatLoop (labels : List Nat) (size : Nat) (bc : Char)
    (both_directions : Bool) (bad : Option Nat) : List Nat × Nat :=
  let f := List.replicate size 0
  let f1 := gapstatPass labels size bad (bc = 'p') f
  if both_directions then
    (gapstatPass (transposeGrid labels size) size bad (bc = 'p') f1, size * 2)
  else (f1, size)

/-- Embedding of `get_gapstat_2d(labels, size, bc, both_directions, bad)`
from `cluster_functions.py`; the final `f / norm` is exact rational
division. -/
def get_gapstat_2d (labels : List Nat) (size : Nat) (bc : Char)
    (both_directions : Bool) (bad : Option Nat) : List ℚ :=
  let fn := gapstatLoop labels size bc both_directions bad
  fn.1.map (fun c => (c : ℚ) / fn.2)

/-- Embedding of `Counter(labels).most_common(1)[0]`: the (label, count)
pair with the maximal count; Python's `max` over the counter items keeps
the first maximal item in first-occurrence order. -/
def mostCommon1 (l : List Nat) : Nat × Nat :=
  l.dedup.foldl (fun best lab => if l.count lab > best.2 then (lab, l.count lab) else best) (0, 0)

/-- Embedding of `np.where(labels == LC_label, np.arange(size*size), labels)`
from `analysis`: every site of the largest cluster is replaced by its own
flat index. -/
def excludeLC (labels : List Nat) (lc : Nat) : List Nat :=
  labels.enum.map (fun p => if p.2 = lc then p.1 else p.2)

/-- Truncating dot product on rationals, `np.dot` on equal-length float
vectors. -/
def dotQ : List ℚ → List ℚ → ℚ
  | [], _ => 0
  | _ :: _, [] => 0
  | a :: as, b :: bs => a * b + dotQ as bs

/-- The corner-contribution expression of `analysis`:
`np.dot(np.arange(size//2), gap_stat[:size//2] + np.flip(gap_stat[size//2:])) / (2*size)`. -/
def corner_contribution (gap_stat : List ℚ) (size : Nat) : ℚ :=
  dotQ ((List.range (size / 2)).map (Nat.cast : Nat → ℚ))
    (List.zipWith (· + ·) (gap_stat.take (size / 2)) ((gap_stat.drop (size / 2)).reverse))
    / (2 * size)

/-- Embedding of `analysis(binned, size, LC)` from `spatial_tomography.py`,
returning `(corner, gap_stat, LC_size)`. -/
def analysis (binned : List Int) (size : Nat) (LC : String) :
    Option (ℚ × List ℚ × Nat) := do
  let bonds := get_bonds_nd binned [size, size] 2 .one
  let labels ← hoshen_kopelman_nd bonds [size, size] 2 ['p', 'p'] false
  let lcPair := mostCommon1 labels
  let labels1 := if LC = "exclude" then excludeLC labels lcPair.1 else labels
  let gap_stat := get_gapstat_2d labels1 size 'p' true none
  pure (corner_contribution gap_stat size, gap_stat, lcPair.2)

/-- Modelled from the spec: the variant of the axis scan described in
section 4.3 of the specification, which stops scanning "after the first
nonzero-component axis is processed (break)", whether or not that axis's
bond is active.  Defined only to compare the specified control flow with
the code's (`axisScanAux`). -/
def axisScanSpecBreakAux (bonds : List (List Int)) (sizes cv : List Nat) (d : Nat) (c : List Nat) :
    Nat → Nat → List Nat → Option (List Nat)
  | 0, _, labels => some labels
  | rem+1, n, labels =>
    if c.getD n 0 ≠ 0 then
      if (bonds.getD n []).getD (flatIdx sizes c) 0 ≠ 0 then do
        let site := dotL c cv
        let r ← find labels labels.length (site - cv.getD n 0)
        (List.range' (n+1) (d - (n+1))).foldlM (crossStep bonds sizes cv c site) (labels.set site r)
      else some labels
    else axisScanSpecBreakAux bonds sizes cv d c rem (n+1) labels

/-- Modelled from the spec: one site visit under the spec's claimed
"break at the first nonzero-component axis" control flow. -/
def axisScanSpecBreak (bonds : List (List Int)) (sizes cv : List Nat) (d : Nat)
    (c labels : List Nat) : Option (List Nat) :=
  axisScanSpecBreakAux bonds sizes cv d c d 0 labels

/-- Modelled from the spec: the number of labels with at least 2
occurrences in a scanned line (claim C6's pre-normalization summand). -/
def labelsWithAtLeast2 (bad : Option Nat) (line : List Nat) : Nat :=
  ((line.filter (fun lab => bad ≠ some lab)).dedup.filter (fun lab => 2 ≤ line.count lab)).length

/-- Modelled from the spec: the periodic wrap events of one line, one per
label seen in the line. -/
def wrapEvents (bad : Option Nat) (line : List Nat) : Nat :=
  (line.filter (fun lab => bad ≠ some lab)).dedup.length

/-- Modelled from the spec: claim C6's predicted pre-normalization sum of
the histogram over one scan direction. -/
def claimGapSum (labels : List Nat) (size : Nat) (bad : Option Nat) : Nat :=
  ((List.range size).map (fun row =>
    labelsWithAtLeast2 bad (gridRow labels size row) + wrapEvents bad (gridRow labels size row))).sum

/-- Equivalence closure of an edge relation: connectivity by a path of
edges. -/
inductive Conn (E : Nat → Nat → Prop) : Nat → Nat → Prop
  | base {x y} : E x y → Conn E x y
  | refl (x) : Conn E x x
  | symm {x y} : Conn E x y → Conn E y x
  | trans {x y z} : Conn E x y → Conn E y z → Conn E x z

/-- An active bond of the input as an edge between flat site indices: a
coordinate `c` with nonzero component along axis `n` is linked to its
axis-`n` predecessor `c - e_n`; at component `0` the bond entry links `c`
to the opposite end of axis `n`, but only when that axis's boundary
condition is `'p'`. -/
def bondEdge (bonds : List (List Int)) (sizes : List Nat) (d : Nat) (bc : List Char)
    (i j : Nat) : Prop :=
  ∃ c n, c ∈ coordsList sizes ∧ n < d ∧
    (bonds.getD n []).getD (flatIdx sizes c) 0 ≠ 0 ∧ i = flatIdx sizes c ∧
    ((c.getD n 0 ≠ 0 ∧ j = flatIdx sizes (c.set n (c.getD n 0 - 1))) ∨
     (c.getD n 0 = 0 ∧ bc.getD n 'o' = 'p' ∧ j = flatIdx sizes (c.set n (sizes.getD n 0 - 1))))

/-- Two sites are connected by a path of active bonds respecting the
boundary conditions. -/
def hkConnected (bonds : List (List Int)) (sizes : List Nat) (d : Nat) (bc : List Char) :
    Nat → Nat → Prop :=
  Conn (bondEdge bonds sizes d bc)

/-- Well-formed input of `hoshen_kopelman_nd`: `d` bond arrays of the
lattice shape, a boundary-condition character per axis, positive sizes. -/
def HKWF (bonds : List (List Int)) (sizes : List Nat) (d : Nat) (bc : List Char) : Prop :=
  d = sizes.length ∧ bc.length = d ∧ bonds.length = d ∧
    (∀ b ∈ bonds, b.length = sizes.prod) ∧ (∀ s ∈ sizes, 0 < s)

/-- The union-find invariant maintained by `hoshen_kopelman_nd`: entries in
range and every chain reaches a root. -/
def UFInv (N : Nat) (labels : List Nat) : Prop :=
  labels.length = N ∧ (∀ v ∈ labels, v < N) ∧ ∀ x, x < N → ∃ r, Reaches labels x r

/-- The forward-direction invariant: every entry of the label array is
connected (by edges of `E`) to its own index. -/
def ConnInv (E : Nat → Nat → Prop) (N : Nat) (labels : List Nat) : Prop :=
  ∀ x, x < N → Conn E x (step labels x)

/-- The invariant of the main sweep before visiting the site with flat
index `t`: union-find invariant, forward connectivity, every unvisited
site still its own root, chains of visited sites confined below `t`, and
every active interior bond of an already-visited site merged. -/
def MainInv (bonds : List (List Int)) (sizes : List Nat) (d : Nat) (bc : List Char)
    (t : Nat) (labels : List Nat) : Prop :=
  UFInv sizes.prod labels ∧
  ConnInv (bondEdge bonds sizes d bc) sizes.prod labels ∧
  (∀ q, t ≤ q → q < sizes.prod → IsRoot labels q) ∧
  (∀ x, x < t → step labels x < t) ∧
  (∀ c, c ∈ coordsList sizes → flatIdx sizes c < t →
    ∀ n, n < d → c.getD n 0 ≠ 0 → (bonds.getD n []).getD (flatIdx sizes c) 0 ≠ 0 →
      sameRoot labels (flatIdx sizes c) (flatIdx sizes c - (sizes.drop (n+1)).prod))

/-- The invariant carried across the union writes performed while visiting
the site with flat index `t` during the main sweep. -/
def CrossInv (bonds : List (List Int)) (sizes : List Nat) (d : Nat) (bc : List Char)
    (t : Nat) (labels : List Nat) : Prop :=
  UFInv sizes.prod labels ∧
  ConnInv (bondEdge bonds sizes d bc) sizes.prod labels ∧
  (∀ q, t + 1 ≤ q → q < sizes.prod → IsRoot labels q) ∧
  (∀ x, x < t → step labels x < t) ∧
  step labels t < t

/-! Theorems.  First the generic union-find development: termination of
`find`, behaviour of `find` on chains, and how one `labels.set` affects
the `Reaches` relation. -/

theorem iter_add (labels : List Nat) (a b x : Nat) :
    iter labels (a + b) x = iter labels b (iter labels a x) := by
  induction a generalizing x with
  | zero => simp [iter]
  | succ a ih =>
    have : a + 1 + b = (a + b) + 1 := by omega
    rw [this]
    simp only [iter]
    exact ih (step labels x)

theorem iter_root (labels : List Nat) {r : Nat} (h : IsRoot labels r) :
    ∀ k, iter labels k r = r := by
  intro k
  induction k with
  | zero => rfl
  | succ k ih => simp only [iter, h, ih]; rw [h]; exact ih

theorem reaches_unique (labels : List Nat) {x r r' : Nat}
    (h : Reaches labels x r) (h' : Reaches labels x r') : r = r' := by
  obtain ⟨k, hk, hr⟩ := h
  obtain ⟨k', hk', hr'⟩ := h'
  rcases Nat.le_total k k' with hle | hle
  · have : iter labels k' x = iter labels (k' - k) (iter labels k x) := by
      rw [← iter_add]; congr 1; omega
    rw [hk, iter_root labels hr] at this
    rw [← hk', this]
  · have : iter labels k x = iter labels (k - k') (iter labels k' x) := by
      rw [← iter_add]; congr 1; omega
    rw [hk', iter_root labels hr'] at this
    rw [← hk, this]

theorem step_lt {labels : List Nat} {N : Nat} (hlen : labels.length = N)
    (hb : ∀ v ∈ labels, v < N) {x : Nat} (hx : x < N) : step labels x < N := by
  have hx' : x < labels.length := by omega
  have : labels.getD x x = labels[x] := List.getD_eq_getElem labels x hx'
  rw [step, this]
  exact hb _ (labels.getElem_mem hx')

theorem iter_lt {labels : List Nat} {N : Nat} (hlen : labels.length = N)
    (hb : ∀ v ∈ labels, v < N) {x : Nat} (hx : x < N) (k : Nat) :
    iter labels k x < N := by
  induction k generalizing x with
  | zero => exact hx
  | succ k ih => exact ih (step_lt hlen hb hx)

theorem iter_lt_of_closed {labels : List Nat} {t : Nat}
    (h : ∀ x < t, step labels x < t) {x : Nat} (hx : x < t) (k : Nat) :
    iter labels k x < t := by
  induction k generalizing x with
  | zero => exact hx
  | succ k ih => exact ih (h x hx)

theorem step_eq_getElem {labels : List Nat} {x : Nat} (h : x < labels.length) :
    step labels x = labels[x] := List.getD_eq_getElem labels x h

theorem iter_succ (labels : List Nat) (k x : Nat) :
    iter labels (k+1) x = step labels (iter labels k x) := by
  have h := iter_add labels k 1 x
  simpa [iter] using h

/-- `find` follows the chain: if the iterates up to `m` stay in range, the
first `m` are not roots and the `m`-th is, then `find` with more than `m`
units of fuel returns the `m`-th iterate. -/
theorem find_of_chain {labels : List Nat} :
    ∀ (m x fuel : Nat), (∀ j, j ≤ m → iter labels j x < labels.length) →
    (∀ j, j < m → ¬ IsRoot labels (iter labels j x)) →
    IsRoot labels (iter labels m x) → m < fuel →
    find labels fuel x = some (iter labels m x) := by
  intro m
  induction m with
  | zero =>
    intro x fuel hin hmin hroot hf
    obtain ⟨f, rfl⟩ : ∃ f, fuel = f + 1 := ⟨fuel - 1, by omega⟩
    have hx : x < labels.length := hin 0 (Nat.le_refl 0)
    have hroot' : labels[x] = x := by
      have h0 : IsRoot labels x := hroot
      rwa [IsRoot, step_eq_getElem hx] at h0
    simp only [find, List.getElem?_eq_getElem hx, hroot', if_pos rfl]
    rfl
  | succ m ih =>
    intro x fuel hin hmin hroot hf
    obtain ⟨f, rfl⟩ : ∃ f, fuel = f + 1 := ⟨fuel - 1, by omega⟩
    have hx : x < labels.length := hin 0 (Nat.zero_le _)
    have hnr : ¬ IsRoot labels x := hmin 0 (Nat.succ_pos m)
    have hstep : labels[x] = step labels x := (step_eq_getElem hx).symm
    have hne : labels[x] ≠ x := by
      rw [hstep]; exact fun hh => hnr hh
    simp only [find, List.getElem?_eq_getElem hx, if_neg hne]
    rw [hstep]
    exact ih (step labels x) f (fun j hj => hin (j+1) (by omega))
      (fun j hj => hmin (j+1) (by omega)) hroot (by omega)

/-- A chain that reaches a root reaches it at a first root index. -/
theorem reaches_first {labels : List Nat} {y s : Nat} (h : Reaches labels y s) :
    ∃ m, iter labels m y = s ∧ IsRoot labels s ∧
      ∀ j, j < m → ¬ IsRoot labels (iter labels j y) := by
  obtain ⟨k, hk, hr⟩ := h
  have hex : ∃ j, IsRoot labels (iter labels j y) := ⟨k, hk ▸ hr⟩
  refine ⟨Nat.find hex, ?_, hr, fun j hj => Nat.find_min hex hj⟩
  exact reaches_unique labels ⟨Nat.find hex, rfl, Nat.find_spec hex⟩ ⟨k, hk, hr⟩

/-- Termination of `find` with fuel `labels.length`: if every entry is in
range and the chain from `x` reaches a root at all, it does so within
`labels.length` steps (the iterates up to the first root are pairwise
distinct), so `find` returns that root. -/
theorem reaches_find {labels : List Nat} {N : Nat} (hlen : labels.length = N)
    (hb : ∀ v ∈ labels, v < N) {x r : Nat} (hx : x < N)
    (hr : Reaches labels x r) : find labels N x = some r := by
  obtain ⟨m, hm, hroot, hmin⟩ := reaches_first hr
  have key : ∀ i j, i < j → j ≤ m → iter labels i x ≠ iter labels j x := by
    intro i j hij hjm heq
    have h1 : iter labels (i + (m - j)) x = iter labels (m - j) (iter labels i x) :=
      iter_add labels i (m - j) x
    have h2 : iter labels (m - j) (iter labels j x) = iter labels (j + (m - j)) x :=
      (iter_add labels j (m - j) x).symm
    have hm' : j + (m - j) = m := by omega
    have hcontra : IsRoot labels (iter labels (i + (m - j)) x) := by
      rw [h1, heq, h2, hm', hm]; exact hroot
    exact hmin _ (by omega) hcontra
  have hnodup : ((List.range (m+1)).map (fun j => iter labels j x)).Nodup := by
    refine List.Nodup.map_on ?_ (List.nodup_range (m+1))
    intro i hi j hj hij
    rw [List.mem_range] at hi hj
    by_contra hne
    rcases Nat.lt_or_ge i j with hlt | hge
    · exact key i j hlt (by omega) hij
    · have hlt : j < i := by omega
      exact key j i hlt (by omega) hij.symm
  have hsub : ((List.range (m+1)).map (fun j => iter labels j x)).toFinset ⊆
      Finset.range N := by
    intro a ha
    rw [List.mem_toFinset] at ha
    obtain ⟨j, _, rfl⟩ := List.mem_map.1 ha
    exact Finset.mem_range.2 (iter_lt hlen hb hx j)
  have hcard := Finset.card_le_card hsub
  rw [List.toFinset_card_of_nodup hnodup, List.length_map, List.length_range,
    Finset.card_range] at hcard
  have hfind := find_of_chain m x N (fun j _ => by
      have := iter_lt hlen hb hx j; omega)
    hmin (hm ▸ hroot) (by omega)
  rw [hm] at hfind
  exact hfind

/-- Two label arrays that agree off `a` iterate identically along a chain
that avoids `a`. -/
theorem iter_agree {L L' : List Nat} {a : Nat}
    (hag : ∀ z, z ≠ a → step L z = step L' z) {y m : Nat}
    (havoid : ∀ j, j < m → iter L j y ≠ a) :
    ∀ j, j ≤ m → iter L j y = iter L' j y := by
  intro j hj
  induction j with
  | zero => rfl
  | succ j ih =>
    rw [iter_succ, iter_succ, ← ih (by omega)]
    exact hag _ (havoid j (by omega))

theorem step_set_ne (labels : List Nat) (a v : Nat) {x : Nat} (hxa : x ≠ a) :
    step (labels.set a v) x = step labels x := by
  unfold step
  rw [List.getD_eq_getElem?_getD, List.getD_eq_getElem?_getD,
    List.getElem?_set_ne (Ne.symm hxa)]

theorem step_set_eq (labels : List Nat) {a : Nat} (v : Nat) (ha : a < labels.length) :
    step (labels.set a v) a = v := by
  unfold step
  rw [List.getD_eq_getElem?_getD, List.getElem?_set_self', List.getElem?_eq_getElem ha]
  rfl

/-- Writing a root's own value back is a no-op. -/
theorem set_step_self {labels : List Nat} {a : Nat} (ha : a < labels.length)
    (h : IsRoot labels a) : labels.set a a = labels := by
  apply List.ext_getElem?
  intro i
  rcases eq_or_ne i a with rfl | hne
  · rw [List.getElem?_set_self', List.getElem?_eq_getElem ha]
    have hval : labels[i] = i := by rw [← step_eq_getElem ha]; exact h
    rw [hval]
    rfl
  · rw [List.getElem?_set_ne (Ne.symm hne)]

/-- Redirection lemma, unchanged-root case: a union write at a root `a`
does not disturb chains whose root is not `a`. -/
theorem reaches_set_of_ne {labels : List Nat} {a v y s : Nat}
    (hra : IsRoot labels a) (h : Reaches labels y s) (hs : s ≠ a) :
    Reaches (labels.set a v) y s := by
  obtain ⟨m, hm, hroot, hmin⟩ := reaches_first h
  have havoid : ∀ j, j < m → iter labels j y ≠ a := by
    intro j hj heq
    exact hmin j hj (heq ▸ hra)
  have hag : ∀ z, z ≠ a → step labels z = step (labels.set a v) z :=
    fun z hz => (step_set_ne labels a v hz).symm
  refine ⟨m, ?_, ?_⟩
  · rw [← iter_agree hag havoid m (le_refl m), hm]
  · unfold IsRoot
    rw [step_set_ne labels a v hs]
    exact hroot

/-- Redirection lemma, merged case: after the union write `labels[a] = v`
at root `a`, chains that used to end at `a` end at the root `v`. -/
theorem reaches_set_to_new {labels : List Nat} {a v y : Nat}
    (ha : a < labels.length) (h : Reaches labels y a) (hv : IsRoot labels v)
    (hva : v ≠ a) : Reaches (labels.set a v) y v := by
  obtain ⟨m, hm, hroot, hmin⟩ := reaches_first h
  have havoid : ∀ j, j < m → iter labels j y ≠ a := by
    intro j hj heq
    exact hmin j hj (heq ▸ hroot)
  have hag : ∀ z, z ≠ a → step labels z = step (labels.set a v) z :=
    fun z hz => (step_set_ne labels a v hz).symm
  refine ⟨m+1, ?_, ?_⟩
  · rw [iter_succ, ← iter_agree hag havoid m (le_refl m), hm]
    exact step_set_eq labels v ha
  · unfold IsRoot
    rw [step_set_ne labels a v hva]
    exact hv

/-- Path-compression safety: writing `labels[x] = r` where `r` is `x`'s
root changes no root assignment at all. -/
theorem reaches_set_compress {labels : List Nat} {x r : Nat}
    (hx : x < labels.length) (hxr : Reaches labels x r) :
    ∀ y s, Reaches (labels.set x r) y s ↔ Reaches labels y s := by
  obtain ⟨k0, hk0, hrroot⟩ := hxr
  rcases eq_or_ne r x with rfl | hrx
  · intro y s
    rw [set_step_self hx hrroot]
  intro y s
  have hag : ∀ z, z ≠ x → step labels z = step (labels.set x r) z :=
    fun z hz => (step_set_ne labels x r hz).symm
  have hag' : ∀ z, z ≠ x → step (labels.set x r) z = step labels z :=
    fun z hz => step_set_ne labels x r hz
  have hrx' : IsRoot (labels.set x r) r := by
    unfold IsRoot; rw [step_set_ne labels x r hrx]; exact hrroot
  constructor
  · intro h
    obtain ⟨m, hm, hroot', hmin'⟩ := reaches_first h
    by_cases hpass : ∃ j, j ≤ m ∧ iter (labels.set x r) j y = x
    · have hex : ∃ j, iter (labels.set x r) j y = x := ⟨hpass.choose, hpass.choose_spec.2⟩
      have hj0 : iter (labels.set x r) (Nat.find hex) y = x := Nat.find_spec hex
      have hj0min : ∀ i, i < Nat.find hex → iter (labels.set x r) i y ≠ x :=
        fun i hi => Nat.find_min hex hi
      have heq : ∀ i, i ≤ Nat.find hex → iter (labels.set x r) i y = iter labels i y :=
        iter_agree hag' hj0min
      have hyr' : Reaches (labels.set x r) y r := by
        refine ⟨Nat.find hex + 1, ?_, hrx'⟩
        rw [iter_succ, hj0]
        exact step_set_eq labels r hx
      have hs : s = r := reaches_unique _ h hyr'
      have hyx : iter labels (Nat.find hex) y = x := by
        rw [← heq _ (le_refl _), hj0]
      rw [hs]
      refine ⟨Nat.find hex + k0, ?_, hrroot⟩
      rw [iter_add, hyx, hk0]
    · push_neg at hpass
      have havoid : ∀ i, i < m → iter (labels.set x r) i y ≠ x :=
        fun i hi => hpass i (by omega)
      have heq : ∀ i, i ≤ m → iter (labels.set x r) i y = iter labels i y :=
        iter_agree hag' havoid
      have hsx : s ≠ x := fun hsx => hpass m (le_refl m) (hm.trans hsx)
      refine ⟨m, ?_, ?_⟩
      · rw [← heq m (le_refl m)]; exact hm
      · unfold IsRoot; rw [← step_set_ne labels x r hsx]; exact hroot'
  · intro h
    obtain ⟨m, hm, hroot0, hmin0⟩ := reaches_first h
    by_cases hpass : ∃ j, j ≤ m ∧ iter labels j y = x
    · have hex : ∃ j, iter labels j y = x := ⟨hpass.choose, hpass.choose_spec.2⟩
      have hj0 : iter labels (Nat.find hex) y = x := Nat.find_spec hex
      have hj0min : ∀ i, i < Nat.find hex → iter labels i y ≠ x :=
        fun i hi => Nat.find_min hex hi
      have heq : ∀ i, i ≤ Nat.find hex → iter labels i y = iter (labels.set x r) i y :=
        iter_agree hag hj0min
      have hj0m : Nat.find hex ≤ m :=
        le_trans (Nat.find_min' hex hpass.choose_spec.2) hpass.choose_spec.1
      have hxs : Reaches labels x s := by
        refine ⟨m - Nat.find hex, ?_, hroot0⟩
        have hsplit : iter labels m y =
            iter labels (m - Nat.find hex) (iter labels (Nat.find hex) y) := by
          rw [← iter_add]; congr 1; omega
        rw [hj0] at hsplit
        rw [← hsplit]; exact hm
      have hsr : s = r := reaches_unique _ hxs ⟨k0, hk0, hrroot⟩
      refine ⟨Nat.find hex + 1, ?_, hsr ▸ hrx'⟩
      rw [iter_succ, ← heq _ (le_refl _), hj0, step_set_eq labels r hx, hsr]
    · push_neg at hpass
      have havoid : ∀ i, i < m → iter labels i y ≠ x := fun i hi => hpass i (by omega)
      have heq := iter_agree hag havoid
      have hsx : s ≠ x := fun hsx => hpass m (le_refl m) (hm.trans hsx)
      refine ⟨m, ?_, ?_⟩
      · rw [← heq m (le_refl m)]; exact hm
      · unfold IsRoot; rw [step_set_ne labels x r hsx]; exact hroot0

theorem UFInv.find_ok {N : Nat} {labels : List Nat} (h : UFInv N labels)
    {x : Nat} (hx : x < N) :
    ∃ r, find labels labels.length x = some r ∧ Reaches labels x r ∧ r < N ∧
      IsRoot labels r := by
  obtain ⟨hlen, hb, hreach⟩ := h
  obtain ⟨r, hr⟩ := hreach x hx
  refine ⟨r, ?_, hr, ?_, hr.choose_spec.2⟩
  · rw [hlen]; exact reaches_find hlen hb hx hr
  · obtain ⟨k, hk, _⟩ := hr
    rw [← hk]
    exact iter_lt hlen hb hx k

/-- Effect of one union write `labels[a] = v` at roots `a`, `v`: the
invariant is kept, no two chains that shared a root are separated, and `a`
and `v` now share a root. -/
theorem UFInv.union {N : Nat} {labels : List Nat} (h : UFInv N labels)
    {a v : Nat} (ha : a < N) (hv : v < N) (hra : IsRoot labels a)
    (hrv : IsRoot labels v) :
    UFInv N (labels.set a v) ∧
    (∀ x y, sameRoot labels x y → sameRoot (labels.set a v) x y) ∧
    sameRoot (labels.set a v) a v := by
  obtain ⟨hlen, hb, hreach⟩ := h
  rcases eq_or_ne v a with rfl | hva
  · rw [set_step_self (by omega) hra]
    exact ⟨⟨hlen, hb, hreach⟩, fun x y hxy => hxy,
      ⟨v, ⟨0, rfl, hra⟩, ⟨0, rfl, hra⟩⟩⟩
  have redirect : ∀ y r, Reaches labels y r →
      Reaches (labels.set a v) y (if r = a then v else r) := by
    intro y r hr
    rcases eq_or_ne r a with rfl | hrne
    · rw [if_pos rfl]
      exact reaches_set_to_new (by omega) hr hrv hva
    · rw [if_neg hrne]
      exact reaches_set_of_ne hra hr hrne
  refine ⟨⟨?_, ?_, ?_⟩, ?_, ?_⟩
  · rw [List.length_set]; exact hlen
  · intro w hw
    rcases List.mem_or_eq_of_mem_set hw with hw' | rfl
    · exact hb w hw'
    · exact hv
  · intro x hx
    obtain ⟨r, hr⟩ := hreach x hx
    exact ⟨_, redirect x r hr⟩
  · intro x y hxy
    obtain ⟨r, hx, hy⟩ := hxy
    exact ⟨_, redirect x r hx, redirect y r hy⟩
  · refine ⟨v, ?_, ?_⟩
    · have := redirect a a ⟨0, rfl, hra⟩
      rwa [if_pos rfl] at this
    · have := redirect v v ⟨0, rfl, hrv⟩
      rwa [if_neg hva] at this

/-- Effect of one compression write `labels[x] = find(x)`: the invariant is
kept and the `Reaches` relation is unchanged. -/
theorem UFInv.compress {N : Nat} {labels : List Nat} (h : UFInv N labels)
    {x r : Nat} (hx : x < N) (hxr : Reaches labels x r) :
    UFInv N (labels.set x r) ∧
    (∀ y s, Reaches (labels.set x r) y s ↔ Reaches labels y s) := by
  obtain ⟨hlen, hb, hreach⟩ := h
  have hiff := reaches_set_compress (x := x) (r := r) (by omega) hxr
  have hrN : r < N := by
    obtain ⟨k, hk, _⟩ := hxr
    rw [← hk]
    exact iter_lt hlen hb hx k
  refine ⟨⟨?_, ?_, ?_⟩, hiff⟩
  · rw [List.length_set]; exact hlen
  · intro w hw
    rcases List.mem_or_eq_of_mem_set hw with hw' | rfl
    · exact hb w hw'
    · exact hrN
  · intro z hz
    obtain ⟨s, hs⟩ := hreach z hz
    exact ⟨s, (hiff z s).2 hs⟩

theorem conn_iter {E : Nat → Nat → Prop} {N : Nat} {labels : List Nat}
    (hc : ConnInv E N labels) (hlen : labels.length = N)
    (hb : ∀ v ∈ labels, v < N) {x : Nat} (hx : x < N) (k : Nat) :
    Conn E x (iter labels k x) := by
  induction k with
  | zero => exact Conn.refl x
  | succ k ih =>
    rw [iter_succ]
    exact Conn.trans ih (hc _ (iter_lt hlen hb hx k))

theorem conn_of_reaches {E : Nat → Nat → Prop} {N : Nat} {labels : List Nat}
    (hc : ConnInv E N labels) (hlen : labels.length = N)
    (hb : ∀ v ∈ labels, v < N) {x r : Nat} (hx : x < N)
    (hr : Reaches labels x r) : Conn E x r := by
  obtain ⟨k, hk, _⟩ := hr
  rw [← hk]
  exact conn_iter hc hlen hb hx k

theorem ConnInv.set {E : Nat → Nat → Prop} {N : Nat} {labels : List Nat}
    (hc : ConnInv E N labels) (hlen : labels.length = N)
    {a v : Nat} (ha : a < N) (hCav : Conn E a v) :
    ConnInv E N (labels.set a v) := by
  intro x hx
  rcases eq_or_ne x a with rfl | hne
  · rw [step_set_eq labels v (by omega)]
    exact hCav
  · rw [step_set_ne labels a v hne]
    exact hc x hx

theorem sameRoot_trans {labels : List Nat} {x y z : Nat}
    (h1 : sameRoot labels x y) (h2 : sameRoot labels y z) : sameRoot labels x z := by
  obtain ⟨r1, hx1, hy1⟩ := h1
  obtain ⟨r2, hy2, hz2⟩ := h2
  rw [reaches_unique labels hy1 hy2] at hx1
  exact ⟨r2, hx1, hz2⟩

theorem sameRoot_symm {labels : List Nat} {x y : Nat}
    (h : sameRoot labels x y) : sameRoot labels y x := by
  obtain ⟨r, hx, hy⟩ := h
  exact ⟨r, hy, hx⟩

/-! Lattice coordinates: the enumeration order of `itertools.product`, the
row-major flat index, and their interaction. -/

theorem convertVec_cons (s : Nat) (rest : List Nat) (n : Nat) :
    convertVec (s :: rest) (n+1) = rest.prod :: convertVec rest n := by
  unfold convertVec
  rw [List.range_succ_eq_map, List.map_cons, List.map_map]
  rfl

theorem convertVec_getD {sizes : List Nat} {d n : Nat} (h : n < d) :
    (convertVec sizes d).getD n 0 = (sizes.drop (n+1)).prod := by
  unfold convertVec
  have hn : n < ((List.range d).map (fun k => (sizes.drop (k+1)).prod)).length := by
    simpa using h
  rw [List.getD_eq_getElem _ _ hn, List.getElem_map, List.getElem_range]

theorem flatIdx_nil (sizes : List Nat) : flatIdx sizes [] = 0 := by
  unfold flatIdx
  cases convertVec sizes sizes.length <;> rfl

theorem flatIdx_cons (s : Nat) (rest : List Nat) (a : Nat) (as : List Nat) :
    flatIdx (s :: rest) (a :: as) = a * rest.prod + flatIdx rest as := by
  unfold flatIdx
  rw [List.length_cons, convertVec_cons]
  rfl

theorem range_mul_flat (s P : Nat) :
    (List.range s).flatMap (fun a => (List.range P).map (fun j => a * P + j)) =
      List.range (s * P) := by
  induction s with
  | zero => simp
  | succ s ih =>
    rw [List.range_succ, List.flatMap_append, ih]
    have hmul : (s + 1) * P = s * P + P := by ring
    rw [hmul, List.range_add (s * P) P]
    simp

theorem coordsList_map_flatIdx (sizes : List Nat) :
    (coordsList sizes).map (flatIdx sizes) = List.range sizes.prod := by
  induction sizes with
  | nil => rfl
  | cons s rest ih =>
    show ((List.range s).flatMap
        (fun c => (coordsList rest).map (fun cs => c :: cs))).map (flatIdx (s :: rest)) =
      List.range (s :: rest).prod
    rw [List.map_flatMap]
    have hinner : ∀ a, ((coordsList rest).map (fun cs => a :: cs)).map (flatIdx (s :: rest)) =
        (List.range rest.prod).map (fun j => a * rest.prod + j) := by
      intro a
      rw [List.map_map, ← ih, List.map_map]
      apply List.map_congr_left
      intro cs _
      exact flatIdx_cons s rest a cs
    calc (List.range s).flatMap
          (fun a => ((coordsList rest).map (fun cs => a :: cs)).map (flatIdx (s :: rest)))
        = (List.range s).flatMap
          (fun a => (List.range rest.prod).map (fun j => a * rest.prod + j)) := by
          apply List.flatMap_congr
          intro a _
          exact hinner a
      _ = List.range (s * rest.prod) := range_mul_flat s rest.prod
      _ = List.range (s :: rest).prod := by rw [List.prod_cons]

theorem coordsList_length (sizes : List Nat) :
    (coordsList sizes).length = sizes.prod := by
  have h := coordsList_map_flatIdx sizes
  have := congrArg List.length h
  simpa using this

theorem flatIdx_lt {sizes : List Nat} {c : List Nat} (h : c ∈ coordsList sizes) :
    flatIdx sizes c < sizes.prod := by
  have hmem : flatIdx sizes c ∈ (coordsList sizes).map (flatIdx sizes) :=
    List.mem_map_of_mem _ h
  rw [coordsList_map_flatIdx] at hmem
  exact List.mem_range.1 hmem

theorem coordsList_getElem_flatIdx (sizes : List Nat) (p : Nat)
    (hp : p < (coordsList sizes).length) :
    flatIdx sizes ((coordsList sizes)[p]) = p := by
  have h := coordsList_map_flatIdx sizes
  have hpN : p < sizes.prod := by
    rw [← coordsList_length sizes]; exact hp
  have e1 : ((coordsList sizes).map (flatIdx sizes))[p]? = some p := by
    rw [h, List.getElem?_range hpN]
  rw [List.getElem?_map, List.getElem?_eq_getElem hp] at e1
  simpa using e1

theorem coordsList_getElem_of_mem {sizes : List Nat} {c : List Nat}
    (h : c ∈ coordsList sizes) :
    ∃ hp : flatIdx sizes c < (coordsList sizes).length,
      (coordsList sizes)[flatIdx sizes c] = c := by
  obtain ⟨p, hp, hc⟩ := List.getElem_of_mem h
  have hflat : flatIdx sizes c = p := by
    rw [← hc]
    exact coordsList_getElem_flatIdx sizes p hp
  subst hflat
  exact ⟨hp, hc⟩

theorem mem_prodLists {ls : List (List Nat)} {c : List Nat} :
    c ∈ prodLists ls ↔ List.Forall₂ (fun x l => x ∈ l) c ls := by
  induction ls generalizing c with
  | nil =>
    simp only [prodLists, List.mem_singleton]
    constructor
    · rintro rfl; exact List.Forall₂.nil
    · intro h; cases h; rfl
  | cons l rest ih =>
    simp only [prodLists, List.mem_flatMap, List.mem_map]
    constructor
    · rintro ⟨a, ha, cs, hcs, rfl⟩
      exact List.Forall₂.cons ha (ih.1 hcs)
    · intro h
      cases h with
      | cons ha hcs => exact ⟨_, ha, _, ih.2 hcs, rfl⟩

theorem mem_coordsList {sizes : List Nat} {c : List Nat} :
    c ∈ coordsList sizes ↔ List.Forall₂ (fun x s => x < s) c sizes := by
  unfold coordsList
  rw [mem_prodLists, List.forall₂_map_right_iff]
  constructor
  · intro h; exact h.imp (fun _ _ hm => List.mem_range.1 hm)
  · intro h; exact h.imp (fun _ _ hm => List.mem_range.2 hm)

theorem coordsList_mem_length {sizes : List Nat} {c : List Nat}
    (h : c ∈ coordsList sizes) : c.length = sizes.length :=
  (mem_coordsList.1 h).length_eq

theorem coordsList_getD_lt {sizes : List Nat} {c : List Nat}
    (h : c ∈ coordsList sizes) {n : Nat} (hn : n < sizes.length) :
    c.getD n 0 < sizes.getD n 0 := by
  have hf := mem_coordsList.1 h
  have hlen := hf.length_eq
  have hn' : n < c.length := by omega
  rw [List.getD_eq_getElem _ _ hn', List.getD_eq_getElem _ _ hn]
  exact hf.get hn' hn

/-- The flat-index shift identity for updating one coordinate component. -/
theorem flatIdx_set {sizes c : List Nat} (h : List.Forall₂ (fun x s => x < s) c sizes) :
    ∀ n v, n < sizes.length →
      flatIdx sizes (c.set n v) + c.getD n 0 * (sizes.drop (n+1)).prod =
        flatIdx sizes c + v * (sizes.drop (n+1)).prod := by
  induction h with
  | nil => intro n v hn; simp at hn
  | @cons a s as rest ha hrest ih =>
    intro n v hn
    cases n with
    | zero =>
      simp only [List.set_cons_zero, List.getD_cons_zero, List.drop_succ_cons, List.drop_zero]
      rw [flatIdx_cons, flatIdx_cons]
      ring
    | succ n =>
      simp only [List.set_cons_succ, List.getD_cons_succ, List.drop_succ_cons]
      rw [flatIdx_cons, flatIdx_cons]
      have := ih n v (by simpa using hn)
      omega

/-- Updating one component within range keeps the coordinate on the
lattice. -/
theorem coordsList_set_mem {sizes c : List Nat} (h : c ∈ coordsList sizes)
    {n v : Nat} (hv : v < sizes.getD n 0) : c.set n v ∈ coordsList sizes := by
  rw [mem_coordsList] at h ⊢
  induction h generalizing n with
  | nil => simp
  | @cons a s as rest ha hrest ih =>
    cases n with
    | zero =>
      rw [List.set_cons_zero]
      exact List.Forall₂.cons (by simpa using hv) hrest
    | succ n =>
      rw [List.set_cons_succ]
      exact List.Forall₂.cons ha (ih (by simpa using hv))

/-- Lower bound: one summand of the flat index. -/
theorem flatIdx_ge {sizes c : List Nat} (h : List.Forall₂ (fun x s => x < s) c sizes) :
    ∀ n, n < sizes.length →
      c.getD n 0 * (sizes.drop (n+1)).prod ≤ flatIdx sizes c := by
  induction h with
  | nil => intro n hn; simp at hn
  | @cons a s as rest ha hrest ih =>
    intro n hn
    cases n with
    | zero =>
      simp only [List.getD_cons_zero, List.drop_succ_cons, List.drop_zero]
      rw [flatIdx_cons]
      omega
    | succ n =>
      simp only [List.getD_cons_succ, List.drop_succ_cons]
      rw [flatIdx_cons]
      have := ih n (by simpa using hn)
      omega

/-- The boundary-pass slice is exactly the lattice coordinates with
component `0` on axis `n`. -/
theorem mem_bcPositions {sizes : List Nat} : ∀ {n : Nat} {c : List Nat},
    (∀ s ∈ sizes, 0 < s) → n < sizes.length →
    (c ∈ bcPositions sizes n ↔ c ∈ coordsList sizes ∧ c.getD n 0 = 0) := by
  induction sizes with
  | nil => intro n c _ hn; simp at hn
  | cons s rest ih =>
    intro n c hpos hn
    cases n with
    | zero =>
      have hbc : bcPositions (s :: rest) 0 = prodLists ([0] :: rest.map List.range) := by
        unfold bcPositions
        simp
      rw [hbc]
      constructor
      · intro h
        rw [mem_prodLists] at h
        cases h with
        | cons ha hcs =>
          rename_i a as
          rw [List.mem_singleton] at ha
          subst ha
          constructor
          · rw [mem_coordsList]
            refine List.Forall₂.cons ?_ ?_
            · exact hpos s (List.mem_cons_self s rest)
            · have : as ∈ coordsList rest := mem_prodLists.2 hcs
              exact mem_coordsList.1 this
          · rfl
      · rintro ⟨hmem, h0⟩
        rw [mem_coordsList] at hmem
        cases hmem with
        | cons ha hcs =>
          rename_i a as
          rw [List.getD_cons_zero] at h0
          subst h0
          rw [mem_prodLists]
          exact List.Forall₂.cons (List.mem_singleton.2 rfl)
            (mem_prodLists.1 (mem_coordsList.2 hcs))
    | succ n =>
      have hbc : bcPositions (s :: rest) (n+1) =
          prodLists (List.range s :: ((rest.take n).map List.range ++ [[0]] ++
            ((rest.drop (n+1)).map List.range))) := by
        unfold bcPositions
        simp [List.take_succ_cons, List.drop_succ_cons]
      rw [hbc]
      constructor
      · intro h
        rw [mem_prodLists] at h
        cases h with
        | cons ha hcs =>
          rename_i a as
          have has : as ∈ bcPositions rest n := mem_prodLists.2 hcs
          have hrest := (ih (fun x hx => hpos x (List.mem_cons_of_mem s hx))
            (by simpa using hn)).1 has
          constructor
          · rw [mem_coordsList]
            exact List.Forall₂.cons (List.mem_range.1 ha) (mem_coordsList.1 hrest.1)
          · rw [List.getD_cons_succ]
            exact hrest.2
      · rintro ⟨hmem, h0⟩
        rw [mem_coordsList] at hmem
        cases hmem with
        | cons ha hcs =>
          rename_i a as
          rw [List.getD_cons_succ] at h0
          rw [mem_prodLists]
          refine List.Forall₂.cons (List.mem_range.2 ha) ?_
          refine mem_prodLists.1 ?_
          show as ∈ bcPositions rest n
          exact (ih (fun x hx => hpos x (List.mem_cons_of_mem s hx))
            (by simpa using hn)).2 ⟨mem_coordsList.2 hcs, h0⟩

/-! The main sweep of `hoshen_kopelman_nd`. -/

theorem dotL_cv {sizes : List Nat} {d : Nat} (hd : d = sizes.length) (c : List Nat) :
    dotL c (convertVec sizes d) = flatIdx sizes c := by
  subst hd
  rfl

theorem stride_pos {sizes : List Nat} (hpos : ∀ s ∈ sizes, 0 < s) (n : Nat) :
    0 < (sizes.drop (n+1)).prod := by
  apply List.prod_pos
  intro s hs
  exact hpos s (List.mem_of_mem_drop hs)

/-- The effect of one iteration of the cross-term loop while visiting the
site `t = flatIdx sizes c`. -/
theorem crossStep_ok {bonds : List (List Int)} {sizes : List Nat} {d : Nat} {bc : List Char}
    (hwf : HKWF bonds sizes d bc) {cv : List Nat} (hcv : cv = convertVec sizes d)
    {c : List Nat} (hc : c ∈ coordsList sizes) {m : Nat} (hm : m < d)
    {labels : List Nat} (hinv : CrossInv bonds sizes d bc (flatIdx sizes c) labels) :
    ∃ labels', crossStep bonds sizes cv c (flatIdx sizes c) labels m = some labels' ∧
      CrossInv bonds sizes d bc (flatIdx sizes c) labels' ∧
      (∀ x y, sameRoot labels x y → sameRoot labels' x y) ∧
      (c.getD m 0 ≠ 0 → (bonds.getD m []).getD (flatIdx sizes c) 0 ≠ 0 →
        sameRoot labels' (flatIdx sizes c) (flatIdx sizes c - (sizes.drop (m+1)).prod)) := by
  obtain ⟨hd, hbclen, hblen, hbon, hpos⟩ := hwf
  obtain ⟨hUF, hConn, hup, hdown, hstept⟩ := hinv
  by_cases h1 : c.getD m 0 ≠ 0
  case neg =>
    refine ⟨labels, ?_, ⟨hUF, hConn, hup, hdown, hstept⟩, fun x y h => h,
      fun hcon => absurd hcon h1⟩
    unfold crossStep
    rw [if_neg h1]
    rfl
  by_cases h2 : (bonds.getD m []).getD (flatIdx sizes c) 0 ≠ 0
  case neg =>
    refine ⟨labels, ?_, ⟨hUF, hConn, hup, hdown, hstept⟩, fun x y h => h,
      fun _ hcon => absurd hcon h2⟩
    unfold crossStep
    rw [if_pos h1, if_neg h2]
    rfl
  -- both components active: the union `labels[find(nb)] = find(t)` happens
  have hcc := mem_coordsList.1 hc
  have hmlen : m < sizes.length := by omega
  have hstr_pos : 0 < (sizes.drop (m+1)).prod := stride_pos hpos m
  have hstr_le : (sizes.drop (m+1)).prod ≤ flatIdx sizes c := by
    have hge := flatIdx_ge hcc m hmlen
    have h1' : 1 ≤ c.getD m 0 := by omega
    have : (sizes.drop (m+1)).prod ≤ c.getD m 0 * (sizes.drop (m+1)).prod :=
      Nat.le_mul_of_pos_left _ (by omega)
    omega
  have hcv_m : cv.getD m 0 = (sizes.drop (m+1)).prod := by
    rw [hcv]; exact convertVec_getD hm
  have htN : flatIdx sizes c < sizes.prod := flatIdx_lt hc
  have hnbt : flatIdx sizes c - cv.getD m 0 < flatIdx sizes c := by
    rw [hcv_m]; omega
  have hnbN : flatIdx sizes c - cv.getD m 0 < sizes.prod := by omega
  obtain ⟨r2, hfind2, hreach2, hr2N, hroot2⟩ := UFInv.find_ok hUF htN
  have hr2t : r2 < flatIdx sizes c := by
    obtain ⟨k, hk, hroot⟩ := hreach2
    cases k with
    | zero =>
      simp only [iter] at hk
      subst hk
      exact absurd hroot (by unfold IsRoot; omega)
    | succ k =>
      simp only [iter] at hk
      rw [← hk]
      exact iter_lt_of_closed hdown hstept k
  obtain ⟨r1, hfind1, hreach1, hr1N, hroot1⟩ := UFInv.find_ok hUF hnbN
  have hr1t : r1 < flatIdx sizes c := by
    obtain ⟨k, hk, _⟩ := hreach1
    rw [← hk]
    exact iter_lt_of_closed hdown hnbt k
  have hedge : bondEdge bonds sizes d bc (flatIdx sizes c)
      (flatIdx sizes c - cv.getD m 0) := by
    refine ⟨c, m, hc, hm, h2, rfl, Or.inl ⟨h1, ?_⟩⟩
    have hset := flatIdx_set hcc m (c.getD m 0 - 1) hmlen
    have hsub : (c.getD m 0 - 1) * (sizes.drop (m+1)).prod =
        c.getD m 0 * (sizes.drop (m+1)).prod - (sizes.drop (m+1)).prod :=
      Nat.sub_one_mul _ _
    have hA : (sizes.drop (m+1)).prod ≤ c.getD m 0 * (sizes.drop (m+1)).prod :=
      Nat.le_mul_of_pos_left _ (by omega)
    rw [hcv_m]
    omega
  have hlen := hUF.1
  have hbnds := hUF.2.1
  have hCr1r2 : Conn (bondEdge bonds sizes d bc) r1 r2 := by
    have c1 : Conn (bondEdge bonds sizes d bc) (flatIdx sizes c - cv.getD m 0) r1 :=
      conn_of_reaches hConn hlen hbnds hnbN hreach1
    have c2 : Conn (bondEdge bonds sizes d bc) (flatIdx sizes c) r2 :=
      conn_of_reaches hConn hlen hbnds htN hreach2
    exact Conn.trans (Conn.symm c1) (Conn.trans (Conn.symm (Conn.base hedge)) c2)
  obtain ⟨hUF', hpers, hpair⟩ := UFInv.union hUF hr1N hr2N hroot1 hroot2
  have hConn' := ConnInv.set hConn hlen hr1N hCr1r2
  refine ⟨labels.set r1 r2, ?_, ⟨hUF', hConn', ?_, ?_, ?_⟩, hpers, ?_⟩
  · unfold crossStep
    rw [if_pos h1, if_pos h2]
    rw [hfind2, hfind1]
    rfl
  · intro q hq1 hq2
    have hqr1 : q ≠ r1 := by omega
    unfold IsRoot
    rw [step_set_ne labels r1 r2 hqr1]
    exact hup q hq1 hq2
  · intro x hx
    rcases eq_or_ne x r1 with rfl | hne
    · rw [step_set_eq labels r2 (by omega)]
      exact hr2t
    · rw [step_set_ne labels r1 r2 hne]
      exact hdown x hx
  · have htr1 : flatIdx sizes c ≠ r1 := by omega
    rw [step_set_ne labels r1 r2 htr1]
    exact hstept
  · intro _ _
    have s1 : sameRoot (labels.set r1 r2) (flatIdx sizes c) r2 :=
      hpers _ _ ⟨r2, hreach2, ⟨0, rfl, hroot2⟩⟩
    have s2 : sameRoot (labels.set r1 r2) (flatIdx sizes c - cv.getD m 0) r1 :=
      hpers _ _ ⟨r1, hreach1, ⟨0, rfl, hroot1⟩⟩
    have schain := sameRoot_trans s1
      (sameRoot_trans (sameRoot_symm hpair) (sameRoot_symm s2))
    rw [hcv_m] at schain
    exact schain

/-- The full cross-term loop, as a fold over the remaining axes. -/
theorem cross_go {bonds : List (List Int)} {sizes : List Nat} {d : Nat} {bc : List Char}
    (hwf : HKWF bonds sizes d bc) {cv : List Nat} (hcv : cv = convertVec sizes d)
    {c : List Nat} (hc : c ∈ coordsList sizes) :
    ∀ (ms : List Nat) (labels : List Nat), (∀ m ∈ ms, m < d) →
    CrossInv bonds sizes d bc (flatIdx sizes c) labels →
    ∃ labels', ms.foldlM (crossStep bonds sizes cv c (flatIdx sizes c)) labels = some labels' ∧
      CrossInv bonds sizes d bc (flatIdx sizes c) labels' ∧
      (∀ x y, sameRoot labels x y → sameRoot labels' x y) ∧
      (∀ m ∈ ms, c.getD m 0 ≠ 0 → (bonds.getD m []).getD (flatIdx sizes c) 0 ≠ 0 →
        sameRoot labels' (flatIdx sizes c) (flatIdx sizes c - (sizes.drop (m+1)).prod)) := by
  intro ms
  induction ms with
  | nil =>
    intro labels _ hinv
    exact ⟨labels, rfl, hinv, fun x y h => h, fun m hm => absurd hm (List.not_mem_nil m)⟩
  | cons m ms ih =>
    intro labels hms hinv
    obtain ⟨labels1, hstep, hinv1, hpers1, hdone1⟩ :=
      crossStep_ok hwf hcv hc (hms m (List.mem_cons_self m ms)) hinv
    obtain ⟨labels', hfold, hinv', hpers', hdone'⟩ :=
      ih labels1 (fun m' hm' => hms m' (List.mem_cons_of_mem m hm')) hinv1
    refine ⟨labels', ?_, hinv', fun x y h => hpers' x y (hpers1 x y h), ?_⟩
    · rw [List.foldlM_cons, hstep]
      simpa using hfold
    · intro m' hm' hnz hact
      rcases List.mem_cons.1 hm' with rfl | hm''
      · exact hpers' _ _ (hdone1 hnz hact)
      · exact hdone' m' hm'' hnz hact

/-- The flat index is injective on the lattice coordinates. -/
theorem coordsList_inj {sizes : List Nat} {c c' : List Nat}
    (h : c ∈ coordsList sizes) (h' : c' ∈ coordsList sizes)
    (heq : flatIdx sizes c = flatIdx sizes c') : c = c' := by
  obtain ⟨hp, hcg⟩ := coordsList_getElem_of_mem h
  obtain ⟨hp', hcg'⟩ := coordsList_getElem_of_mem h'
  rw [← hcg, ← hcg']
  congr 1

/-- One full site visit of the main sweep, starting at axis `n` with all
earlier nonzero-component axes known inactive. -/
theorem axisScan_go {bonds : List (List Int)} {sizes : List Nat} {d : Nat} {bc : List Char}
    (hwf : HKWF bonds sizes d bc) {cv : List Nat} (hcv : cv = convertVec sizes d)
    {c : List Nat} (hc : c ∈ coordsList sizes) :
    ∀ (rem n : Nat) (labels : List Nat), n + rem = d →
    (∀ m, m < n → c.getD m 0 ≠ 0 → ¬ (bonds.getD m []).getD (flatIdx sizes c) 0 ≠ 0) →
    MainInv bonds sizes d bc (flatIdx sizes c) labels →
    ∃ labels', axisScanAux bonds sizes cv d c rem n labels = some labels' ∧
      MainInv bonds sizes d bc (flatIdx sizes c + 1) labels' ∧
      (∀ x y, sameRoot labels x y → sameRoot labels' x y) := by
  obtain ⟨hd, hbclen, hblen, hbon, hpos⟩ := hwf
  intro rem
  induction rem with
  | zero =>
    intro n labels hnd hpre hinv
    obtain ⟨hUF, hConn, hup, hdown, hedges⟩ := hinv
    have htN : flatIdx sizes c < sizes.prod := flatIdx_lt hc
    refine ⟨labels, rfl, ⟨hUF, hConn, ?_, ?_, ?_⟩, fun x y h => h⟩
    · intro q hq1 hq2
      exact hup q (by omega) hq2
    · intro x hx
      rcases Nat.lt_or_ge x (flatIdx sizes c) with hlt | hge
      · have := hdown x hlt; omega
      · have hx' : x = flatIdx sizes c := by omega
        subst hx'
        have hroot := hup (flatIdx sizes c) (le_refl _) (by omega)
        unfold IsRoot at hroot
        omega
    · intro c' hc' hflat n' hn' hnz hact
      rcases Nat.lt_or_ge (flatIdx sizes c') (flatIdx sizes c) with hlt | hge
      · exact hedges c' hc' hlt n' hn' hnz hact
      · have heq : c' = c := coordsList_inj hc' hc (by omega)
        subst heq
        exact absurd hact (hpre n' (by omega) hnz)
  | succ rem ih =>
    intro n labels hnd hpre hinv
    by_cases hz : c.getD n 0 ≠ 0
    case neg =>
      obtain ⟨labels', hrun, hinv', hpers⟩ := ih (n+1) labels (by omega)
        (fun m hm hnz => by
          rcases Nat.lt_or_ge m n with hlt | hge
          · exact hpre m hlt hnz
          · have : m = n := by omega
            subst this
            exact absurd hnz hz) hinv
      refine ⟨labels', ?_, hinv', hpers⟩
      unfold axisScanAux
      rw [if_neg hz]
      exact hrun
    by_cases ha : (bonds.getD n []).getD (flatIdx sizes c) 0 ≠ 0
    case neg =>
      obtain ⟨labels', hrun, hinv', hpers⟩ := ih (n+1) labels (by omega)
        (fun m hm hnz => by
          rcases Nat.lt_or_ge m n with hlt | hge
          · exact hpre m hlt hnz
          · have : m = n := by omega
            subst this
            exact ha) hinv
      refine ⟨labels', ?_, hinv', hpers⟩
      unfold axisScanAux
      rw [if_pos hz, if_neg ha]
      exact hrun
    -- active axis `n`: primary union, cross loop, break
    obtain ⟨hUF, hConn, hup, hdown, hedges⟩ := hinv
    have hnd' : n < d := by omega
    have hcc := mem_coordsList.1 hc
    have hnlen : n < sizes.length := by omega
    have hsite : dotL c cv = flatIdx sizes c := by rw [hcv]; exact dotL_cv hd c
    have hstr_pos : 0 < (sizes.drop (n+1)).prod := stride_pos hpos n
    have hstr_le : (sizes.drop (n+1)).prod ≤ flatIdx sizes c := by
      have hge := flatIdx_ge hcc n hnlen
      have : (sizes.drop (n+1)).prod ≤ c.getD n 0 * (sizes.drop (n+1)).prod :=
        Nat.le_mul_of_pos_left _ (by omega)
      omega
    have hcv_n : cv.getD n 0 = (sizes.drop (n+1)).prod := by
      rw [hcv]; exact convertVec_getD hnd'
    have htN : flatIdx sizes c < sizes.prod := flatIdx_lt hc
    have hnbt : flatIdx sizes c - cv.getD n 0 < flatIdx sizes c := by
      rw [hcv_n]; omega
    have hnbN : flatIdx sizes c - cv.getD n 0 < sizes.prod := by omega
    obtain ⟨r, hfind, hreach, hrN, hroot⟩ := UFInv.find_ok hUF hnbN
    have hrt : r < flatIdx sizes c := by
      obtain ⟨k, hk, _⟩ := hreach
      rw [← hk]
      exact iter_lt_of_closed hdown hnbt k
    have htroot : IsRoot labels (flatIdx sizes c) := hup _ (le_refl _) htN
    have hedge : bondEdge bonds sizes d bc (flatIdx sizes c)
        (flatIdx sizes c - cv.getD n 0) := by
      refine ⟨c, n, hc, hnd', ha, rfl, Or.inl ⟨hz, ?_⟩⟩
      have hset := flatIdx_set hcc n (c.getD n 0 - 1) hnlen
      have hsub : (c.getD n 0 - 1) * (sizes.drop (n+1)).prod =
          c.getD n 0 * (sizes.drop (n+1)).prod - (sizes.drop (n+1)).prod :=
        Nat.sub_one_mul _ _
      have hA : (sizes.drop (n+1)).prod ≤ c.getD n 0 * (sizes.drop (n+1)).prod :=
        Nat.le_mul_of_pos_left _ (by omega)
      rw [hcv_n]
      omega
    have hlen := hUF.1
    have hbnds := hUF.2.1
    have hCtr : Conn (bondEdge bonds sizes d bc) (flatIdx sizes c) r :=
      Conn.trans (Conn.base hedge) (conn_of_reaches hConn hlen hbnds hnbN hreach)
    obtain ⟨hUF1, hpers1, hpair1⟩ := UFInv.union hUF htN hrN htroot hroot
    have hConn1 := ConnInv.set hConn hlen htN hCtr
    have hinv1 : CrossInv bonds sizes d bc (flatIdx sizes c)
        (labels.set (flatIdx sizes c) r) := by
      refine ⟨hUF1, hConn1, ?_, ?_, ?_⟩
      · intro q hq1 hq2
        have hqt : q ≠ flatIdx sizes c := by omega
        unfold IsRoot
        rw [step_set_ne labels _ r hqt]
        exact hup q (by omega) hq2
      · intro x hx
        have hxt : x ≠ flatIdx sizes c := by omega
        rw [step_set_ne labels _ r hxt]
        exact hdown x hx
      · rw [step_set_eq labels r (by omega)]
        exact hrt
    have hsr1 : sameRoot (labels.set (flatIdx sizes c) r)
        (flatIdx sizes c) (flatIdx sizes c - cv.getD n 0) := by
      have s2 := hpers1 _ _ ⟨r, hreach, ⟨0, rfl, hroot⟩⟩
      exact sameRoot_trans hpair1 (sameRoot_symm s2)
    have hmsd : ∀ m ∈ List.range' (n+1) (d-(n+1)), m < d := by
      intro m hm
      have := List.mem_range'_1.1 hm
      omega
    obtain ⟨labels', hfold, hinvX, hpersX, hdoneX⟩ :=
      cross_go ⟨hd, hbclen, hblen, hbon, hpos⟩ hcv hc (List.range' (n+1) (d-(n+1)))
        (labels.set (flatIdx sizes c) r) hmsd hinv1
    obtain ⟨hUF', hConn', hup', hdown', hstept'⟩ := hinvX
    refine ⟨labels', ?_, ⟨hUF', hConn', ?_, ?_, ?_⟩,
      fun x y h => hpersX x y (hpers1 x y h)⟩
    · unfold axisScanAux
      rw [if_pos hz, if_pos ha]
      simp only [hsite, hfind, Option.bind_eq_bind, Option.some_bind]
      exact hfold
    · intro q hq1 hq2
      exact hup' q hq1 hq2
    · intro x hx
      rcases Nat.lt_or_ge x (flatIdx sizes c) with hlt | hge
      · have := hdown' x hlt; omega
      · have hx' : x = flatIdx sizes c := by omega
        subst hx'
        omega
    · intro c' hc' hflat n' hn' hnz hact
      rcases Nat.lt_or_ge (flatIdx sizes c') (flatIdx sizes c) with hlt | hge
      · exact hpersX _ _ (hpers1 _ _ (hedges c' hc' hlt n' hn' hnz hact))
      · have heq : c' = c := coordsList_inj hc' hc (by omega)
        subst heq
        rcases Nat.lt_trichotomy n' n with hlt' | heq' | hgt'
        · exact absurd hact (hpre n' hlt' hnz)
        · subst heq'
          have := hpersX _ _ hsr1
          rw [hcv_n] at this
          exact this
        · have hmem : n' ∈ List.range' (n+1) (d-(n+1)) := by
            rw [List.mem_range'_1]
            omega
          exact hdoneX n' hmem hnz hact

/-- One full site visit (`axisScan`), from the scan's start. -/
theorem axisScan_ok {bonds : List (List Int)} {sizes : List Nat} {d : Nat} {bc : List Char}
    (hwf : HKWF bonds sizes d bc) {cv : List Nat} (hcv : cv = convertVec sizes d)
    {c : List Nat} (hc : c ∈ coordsList sizes) {labels : List Nat}
    (hinv : MainInv bonds sizes d bc (flatIdx sizes c) labels) :
    ∃ labels', axisScan bonds sizes cv d c labels = some labels' ∧
      MainInv bonds sizes d bc (flatIdx sizes c + 1) labels' ∧
      (∀ x y, sameRoot labels x y → sameRoot labels' x y) :=
  axisScan_go hwf hcv hc d 0 labels (by omega)
    (fun m hm => absurd hm (Nat.not_lt_zero m)) hinv

/-- The whole main sweep, processing the suffix of the coordinate list
from flat position `t` on. -/
theorem mainPass_go {bonds : List (List Int)} {sizes : List Nat} {d : Nat} {bc : List Char}
    (hwf : HKWF bonds sizes d bc) {cv : List Nat} (hcv : cv = convertVec sizes d) :
    ∀ (k t : Nat) (labels : List Nat), t + k = sizes.prod →
    MainInv bonds sizes d bc t labels →
    ∃ labels', ((coordsList sizes).drop t).foldlM
        (fun labels c => axisScan bonds sizes cv d c labels) labels = some labels' ∧
      MainInv bonds sizes d bc sizes.prod labels' ∧
      (∀ x y, sameRoot labels x y → sameRoot labels' x y) := by
  intro k
  induction k with
  | zero =>
    intro t labels ht hinv
    have hdrop : (coordsList sizes).drop t = [] := by
      apply List.drop_eq_nil_of_le
      rw [coordsList_length]
      omega
    rw [hdrop]
    have ht' : t = sizes.prod := by omega
    subst ht'
    exact ⟨labels, rfl, hinv, fun x y h => h⟩
  | succ k ih =>
    intro t labels ht hinv
    have htl : t < (coordsList sizes).length := by
      rw [coordsList_length]; omega
    have hdrop : (coordsList sizes).drop t =
        (coordsList sizes)[t] :: (coordsList sizes).drop (t+1) :=
      List.drop_eq_getElem_cons htl
    have hmem : (coordsList sizes)[t] ∈ coordsList sizes := List.getElem_mem htl
    have hflat : flatIdx sizes ((coordsList sizes)[t]) = t :=
      coordsList_getElem_flatIdx sizes t htl
    obtain ⟨labels1, hrun, hinv1, hpers1⟩ := axisScan_ok hwf hcv hmem (hflat ▸ hinv)
    rw [hflat] at hinv1
    obtain ⟨labels', hfold, hinv', hpers'⟩ := ih (t+1) labels1 (by omega) hinv1
    refine ⟨labels', ?_, hinv', fun x y h => hpers' x y (hpers1 x y h)⟩
    rw [hdrop, List.foldlM_cons, hrun]
    simpa using hfold

/-- The initial label array `np.arange(N)` satisfies the sweep invariant. -/
theorem mainInv_init {bonds : List (List Int)} {sizes : List Nat} {d : Nat} {bc : List Char} :
    MainInv bonds sizes d bc 0 (List.range sizes.prod) := by
  have hroot : ∀ x, x < sizes.prod → IsRoot (List.range sizes.prod) x := by
    intro x hx
    unfold IsRoot step
    rw [List.getD_eq_getElem _ _ (by simpa using hx), List.getElem_range]
  refine ⟨⟨List.length_range _, ?_, ?_⟩, ?_, ?_, ?_, ?_⟩
  · intro v hv
    exact List.mem_range.1 hv
  · intro x hx
    exact ⟨x, ⟨0, rfl, hroot x hx⟩⟩
  · intro x hx
    have : step (List.range sizes.prod) x = x := hroot x hx
    rw [this]
    exact Conn.refl x
  · intro q _ hq
    exact hroot q hq
  · intro x hx
    omega
  · intro c _ hflat
    omega

/-! The boundary-condition pass. -/

/-- One wraparound union of the boundary pass. -/
theorem bcStep_ok {bonds : List (List Int)} {sizes : List Nat} {d : Nat} {bc : List Char}
    (hwf : HKWF bonds sizes d bc) {cv : List Nat} (hcv : cv = convertVec sizes d)
    {n : Nat} (hn : n < d) (hp : bc.getD n 'o' = 'p') {c : List Nat}
    (hc : c ∈ bcPositions sizes n) {labels : List Nat}
    (hUF : UFInv sizes.prod labels)
    (hConn : ConnInv (bondEdge bonds sizes d bc) sizes.prod labels) :
    ∃ labels', bcStep bonds sizes cv n labels c = some labels' ∧
      UFInv sizes.prod labels' ∧
      ConnInv (bondEdge bonds sizes d bc) sizes.prod labels' ∧
      (∀ x y, sameRoot labels x y → sameRoot labels' x y) ∧
      ((bonds.getD n []).getD (flatIdx sizes c) 0 ≠ 0 →
        sameRoot labels' (flatIdx sizes c)
          (flatIdx sizes (c.set n (sizes.getD n 0 - 1)))) := by
  obtain ⟨hd, hbclen, hblen, hbon, hpos⟩ := hwf
  have hnlen : n < sizes.length := by omega
  obtain ⟨hcmem, hc0⟩ := (mem_bcPositions hpos hnlen).1 hc
  by_cases hact : (bonds.getD n []).getD (flatIdx sizes c) 0 ≠ 0
  case neg =>
    refine ⟨labels, ?_, hUF, hConn, fun x y h => h, fun h => absurd h hact⟩
    unfold bcStep
    rw [if_neg hact]
    rfl
  have hcc := mem_coordsList.1 hcmem
  have hsize_pos : 0 < sizes.getD n 0 := by
    apply hpos
    have : sizes.getD n 0 = sizes[n] := List.getD_eq_getElem sizes 0 hnlen
    rw [this]
    exact List.getElem_mem hnlen
  have hsite : dotL c cv = flatIdx sizes c := by rw [hcv]; exact dotL_cv hd c
  have hcv_n : cv.getD n 0 = (sizes.drop (n+1)).prod := by
    rw [hcv]; exact convertVec_getD hn
  have hsetmem : c.set n (sizes.getD n 0 - 1) ∈ coordsList sizes :=
    coordsList_set_mem hcmem (by omega)
  have hnbform : flatIdx sizes (c.set n (sizes.getD n 0 - 1)) =
      flatIdx sizes c + cv.getD n 0 * (sizes.getD n 0 - 1) := by
    have hset := flatIdx_set hcc n (sizes.getD n 0 - 1) hnlen
    rw [hc0] at hset
    rw [hcv_n]
    have hcomm : (sizes.getD n 0 - 1) * (sizes.drop (n+1)).prod =
        (sizes.drop (n+1)).prod * (sizes.getD n 0 - 1) := Nat.mul_comm _ _
    omega
  have htN : flatIdx sizes c < sizes.prod := flatIdx_lt hcmem
  have hnbN : flatIdx sizes c + cv.getD n 0 * (sizes.getD n 0 - 1) < sizes.prod := by
    rw [← hnbform]
    exact flatIdx_lt hsetmem
  obtain ⟨rs, hfind_s, hreach_s, hrsN, hroot_s⟩ := UFInv.find_ok hUF htN
  obtain ⟨rn, hfind_n, hreach_n, hrnN, hroot_n⟩ := UFInv.find_ok hUF hnbN
  have hlen := hUF.1
  have hbnds := hUF.2.1
  have hedge : bondEdge bonds sizes d bc (flatIdx sizes c)
      (flatIdx sizes c + cv.getD n 0 * (sizes.getD n 0 - 1)) := by
    refine ⟨c, n, hcmem, hn, hact, rfl, Or.inr ⟨hc0, hp, ?_⟩⟩
    exact hnbform.symm
  have hCrnrs : Conn (bondEdge bonds sizes d bc) rn rs := by
    have c1 := conn_of_reaches hConn hlen hbnds hnbN hreach_n
    have c2 := conn_of_reaches hConn hlen hbnds htN hreach_s
    exact Conn.trans (Conn.symm c1) (Conn.trans (Conn.symm (Conn.base hedge)) c2)
  obtain ⟨hUF', hpers, hpair⟩ := UFInv.union hUF hrnN hrsN hroot_n hroot_s
  have hConn' := ConnInv.set hConn hlen hrnN hCrnrs
  have hval : step labels rs = rs := hroot_s
  refine ⟨labels.set rn rs, ?_, hUF', hConn', hpers, fun _ => ?_⟩
  · unfold bcStep
    rw [if_pos hact]
    simp only [hsite, hfind_s, hfind_n, Option.bind_eq_bind, Option.some_bind]
    rw [hval]
    rfl
  · have s1 : sameRoot (labels.set rn rs) (flatIdx sizes c) rs :=
      hpers _ _ ⟨rs, hreach_s, ⟨0, rfl, hroot_s⟩⟩
    have s2 : sameRoot (labels.set rn rs)
        (flatIdx sizes c + cv.getD n 0 * (sizes.getD n 0 - 1)) rn :=
      hpers _ _ ⟨rn, hreach_n, ⟨0, rfl, hroot_n⟩⟩
    have schain := sameRoot_trans s1
      (sameRoot_trans (sameRoot_symm hpair) (sameRoot_symm s2))
    rw [hnbform]
    exact schain

/-- The inner boundary fold over the axis-`n` slice. -/
theorem bcSlice_go {bonds : List (List Int)} {sizes : List Nat} {d : Nat} {bc : List Char}
    (hwf : HKWF bonds sizes d bc) {cv : List Nat} (hcv : cv = convertVec sizes d)
    {n : Nat} (hn : n < d) (hp : bc.getD n 'o' = 'p') :
    ∀ (cs : List (List Nat)) (labels : List Nat), (∀ c ∈ cs, c ∈ bcPositions sizes n) →
    UFInv sizes.prod labels →
    ConnInv (bondEdge bonds sizes d bc) sizes.prod labels →
    ∃ labels', cs.foldlM (bcStep bonds sizes cv n) labels = some labels' ∧
      UFInv sizes.prod labels' ∧
      ConnInv (bondEdge bonds sizes d bc) sizes.prod labels' ∧
      (∀ x y, sameRoot labels x y → sameRoot labels' x y) ∧
      (∀ c ∈ cs, (bonds.getD n []).getD (flatIdx sizes c) 0 ≠ 0 →
        sameRoot labels' (flatIdx sizes c)
          (flatIdx sizes (c.set n (sizes.getD n 0 - 1)))) := by
  intro cs
  induction cs with
  | nil =>
    intro labels _ hUF hConn
    exact ⟨labels, rfl, hUF, hConn, fun x y h => h, fun c hc => absurd hc (List.not_mem_nil c)⟩
  | cons c cs ih =>
    intro labels hcs hUF hConn
    obtain ⟨labels1, hstep, hUF1, hConn1, hpers1, hdone1⟩ :=
      bcStep_ok hwf hcv hn hp (hcs c (List.mem_cons_self c cs)) hUF hConn
    obtain ⟨labels', hfold, hUF', hConn', hpers', hdone'⟩ :=
      ih labels1 (fun c' hc' => hcs c' (List.mem_cons_of_mem c hc')) hUF1 hConn1
    refine ⟨labels', ?_, hUF', hConn', fun x y h => hpers' x y (hpers1 x y h), ?_⟩
    · rw [List.foldlM_cons, hstep]
      simpa using hfold
    · intro c' hc' hact
      rcases List.mem_cons.1 hc' with rfl | hm
      · exact hpers' _ _ (hdone1 hact)
      · exact hdone' c' hm hact

/-- The outer boundary fold over the axes. -/
theorem bcPass_go {bonds : List (List Int)} {sizes : List Nat} {d : Nat} {bc : List Char}
    (hwf : HKWF bonds sizes d bc) {cv : List Nat} (hcv : cv = convertVec sizes d) :
    ∀ (ns : List Nat) (labels : List Nat), (∀ n ∈ ns, n < d) →
    UFInv sizes.prod labels →
    ConnInv (bondEdge bonds sizes d bc) sizes.prod labels →
    ∃ labels', ns.foldlM (fun labels n =>
        if bc.getD n 'o' = 'p' then (bcPositions sizes n).foldlM (bcStep bonds sizes cv n) labels
        else some labels) labels = some labels' ∧
      UFInv sizes.prod labels' ∧
      ConnInv (bondEdge bonds sizes d bc) sizes.prod labels' ∧
      (∀ x y, sameRoot labels x y → sameRoot labels' x y) ∧
      (∀ n ∈ ns, bc.getD n 'o' = 'p' → ∀ c ∈ bcPositions sizes n,
        (bonds.getD n []).getD (flatIdx sizes c) 0 ≠ 0 →
          sameRoot labels' (flatIdx sizes c)
            (flatIdx sizes (c.set n (sizes.getD n 0 - 1)))) := by
  intro ns
  induction ns with
  | nil =>
    intro labels _ hUF hConn
    exact ⟨labels, rfl, hUF, hConn, fun x y h => h, fun n hn => absurd hn (List.not_mem_nil n)⟩
  | cons n ns ih =>
    intro labels hns hUF hConn
    by_cases hpn : bc.getD n 'o' = 'p'
    · obtain ⟨labels1, hstep, hUF1, hConn1, hpers1, hdone1⟩ :=
        bcSlice_go hwf hcv (hns n (List.mem_cons_self n ns)) hpn (bcPositions sizes n)
          labels (fun c hc => hc) hUF hConn
      obtain ⟨labels', hfold, hUF', hConn', hpers', hdone'⟩ :=
        ih labels1 (fun n' hn' => hns n' (List.mem_cons_of_mem n hn')) hUF1 hConn1
      refine ⟨labels', ?_, hUF', hConn', fun x y h => hpers' x y (hpers1 x y h), ?_⟩
      · rw [List.foldlM_cons, if_pos hpn, hstep]
        simpa using hfold
      · intro n' hn' hp' c hc hact
        rcases List.mem_cons.1 hn' with rfl | hm
        · exact hpers' _ _ (hdone1 c hc hact)
        · exact hdone' n' hm hp' c hc hact
    · obtain ⟨labels', hfold, hUF', hConn', hpers', hdone'⟩ :=
        ih labels (fun n' hn' => hns n' (List.mem_cons_of_mem n hn')) hUF hConn
      refine ⟨labels', ?_, hUF', hConn', hpers', ?_⟩
      · rw [List.foldlM_cons, if_neg hpn]
        simpa using hfold
      · intro n' hn' hp' c hc hact
        rcases List.mem_cons.1 hn' with rfl | hm
        · exact absurd hp' hpn
        · exact hdone' n' hm hp' c hc hact

/-! The canonicalization pass. -/

/-- One compression write `labels[i] = find(i)` of the canonicalization
pass. -/
theorem canonStep_ok {E : Nat → Nat → Prop} {N : Nat} {cur : List Nat}
    (hUF : UFInv N cur) (hConn : ConnInv E N cur) {i : Nat} (hi : i < N) :
    ∃ cur', (do
        let r ← find cur cur.length i
        pure (cur.set i r) : Option (List Nat)) = some cur' ∧
      UFInv N cur' ∧ ConnInv E N cur' ∧
      (∀ y s, Reaches cur' y s ↔ Reaches cur y s) ∧
      (∀ j, IsRoot cur (step cur j) → IsRoot cur' (step cur' j)) ∧
      IsRoot cur' (step cur' i) := by
  obtain ⟨r, hfind, hreach, hrN, hroot⟩ := UFInv.find_ok hUF hi
  have hlen := hUF.1
  obtain ⟨hUF', hiff⟩ := UFInv.compress hUF hi hreach
  have hConn' : ConnInv E N (cur.set i r) :=
    ConnInv.set hConn hlen hi (conn_of_reaches hConn hlen hUF.2.1 hi hreach)
  by_cases hri : r = i
  · subst hri
    have hnoop : cur.set r r = cur := set_step_self (by omega) hroot
    refine ⟨cur, ?_, hUF, hConn, fun y s => Iff.rfl, fun j h => h, ?_⟩
    · rw [hfind]
      simp only [Option.bind_eq_bind, Option.some_bind]
      rw [hnoop]
      rfl
    · have he : step cur r = r := hroot
      rw [he]
      exact hroot
  · refine ⟨cur.set i r, ?_, hUF', hConn', hiff, ?_, ?_⟩
    · rw [hfind]
      rfl
    · intro j hj
      have hnroot : ¬ IsRoot cur i := by
        intro hroot_i
        exact hri (reaches_unique cur hreach ⟨0, rfl, hroot_i⟩)
      by_cases hji : j = i
      · subst hji
        rw [step_set_eq cur r (by omega)]
        unfold IsRoot
        rw [step_set_ne cur j r hri]
        exact hroot
      · rw [step_set_ne cur i r hji]
        have hvi : step cur j ≠ i := by
          intro hv
          rw [hv] at hj
          exact hnroot hj
        unfold IsRoot
        rw [step_set_ne cur i r hvi]
        exact hj
    · rw [step_set_eq cur r (by omega)]
      unfold IsRoot
      rw [step_set_ne cur i r hri]
      exact hroot

/-- The canonicalization fold. -/
theorem canon_go {E : Nat → Nat → Prop} {N : Nat} {labels0 : List Nat} :
    ∀ (ns : List Nat) (cur : List Nat), (∀ i ∈ ns, i < N) →
    UFInv N cur → ConnInv E N cur →
    (∀ y s, Reaches cur y s ↔ Reaches labels0 y s) →
    ∃ cur', ns.foldlM (fun labs i => do
        let r ← find labs labs.length i
        pure (labs.set i r)) cur = some cur' ∧
      UFInv N cur' ∧ ConnInv E N cur' ∧
      (∀ y s, Reaches cur' y s ↔ Reaches labels0 y s) ∧
      (∀ j, IsRoot cur (step cur j) → IsRoot cur' (step cur' j)) ∧
      (∀ i ∈ ns, IsRoot cur' (step cur' i)) := by
  intro ns
  induction ns with
  | nil =>
    intro cur _ hUF hConn hiff0
    exact ⟨cur, rfl, hUF, hConn, hiff0, fun j h => h,
      fun i hi => absurd hi (List.not_mem_nil i)⟩
  | cons i ns ih =>
    intro cur hns hUF hConn hiff0
    obtain ⟨cur1, hstep, hUF1, hConn1, hiff1, hkeep1, hdone1⟩ :=
      canonStep_ok hUF hConn (hns i (List.mem_cons_self i ns))
    obtain ⟨cur', hfold, hUF', hConn', hiff', hkeep', hdone'⟩ :=
      ih cur1 (fun j hj => hns j (List.mem_cons_of_mem i hj)) hUF1 hConn1
        (fun y s => (hiff1 y s).trans (hiff0 y s))
    refine ⟨cur', ?_, hUF', hConn', hiff',
      fun j hj => hkeep' j (hkeep1 j hj), ?_⟩
    · rw [List.foldlM_cons, hstep]
      simpa using hfold
    · intro j hj
      rcases List.mem_cons.1 hj with rfl | hm
      · exact hkeep' j hdone1
      · exact hdone' j hm

/-- At the end of the canonicalization pass, two entries agree exactly when
the sites shared a root before the pass. -/
theorem canon_root_eq {N : Nat} {labels final : List Nat}
    (hiff : ∀ y s, Reaches final y s ↔ Reaches labels y s)
    (hdone : ∀ i, i < N → IsRoot final (step final i)) {i j : Nat}
    (hi : i < N) (hj : j < N) :
    step final i = step final j ↔ sameRoot labels i j := by
  constructor
  · intro heq
    have h1 : Reaches final i (step final i) := ⟨1, rfl, hdone i hi⟩
    have h2 : Reaches final j (step final j) := ⟨1, rfl, hdone j hj⟩
    rw [heq] at h1
    exact ⟨step final j, (hiff _ _).1 h1, (hiff _ _).1 h2⟩
  · rintro ⟨r, hir, hjr⟩
    have h1 : Reaches final i r := (hiff i r).2 hir
    have h2 : Reaches final j r := (hiff j r).2 hjr
    have e1 : step final i = r := reaches_unique final ⟨1, rfl, hdone i hi⟩ h1
    have e2 : step final j = r := reaches_unique final ⟨1, rfl, hdone j hj⟩ h2
    rw [e1, e2]

/-- Master run of `hoshen_kopelman_nd` on well-formed input: every internal
`find` succeeds, and the canonical label array decides exactly the bond
connectivity of the input. -/
theorem hk_run {bonds : List (List Int)} {sizes : List Nat} {d : Nat} {bc : List Char}
    (hwf : HKWF bonds sizes d bc) :
    ∃ l3, (∀ red, hoshen_kopelman_nd bonds sizes d bc red =
        some (if red then uniqueInverse l3 else l3)) ∧
      l3.length = sizes.prod ∧
      (∀ v ∈ l3, v < sizes.prod) ∧
      (∀ i, i < sizes.prod → IsRoot l3 (step l3 i)) ∧
      (∀ i j, i < sizes.prod → j < sizes.prod →
        (step l3 i = step l3 j ↔ hkConnected bonds sizes d bc i j)) := by
  obtain ⟨l1, h1run, hMain, hpers1⟩ :=
    mainPass_go hwf rfl sizes.prod 0 (List.range sizes.prod)
      (by omega) mainInv_init
  rw [List.drop_zero] at h1run
  obtain ⟨hUF1, hConn1, _, _, hEdges1⟩ := hMain
  obtain ⟨l2, h2run, hUF2, hConn2, hpers2, hwrap2⟩ :=
    bcPass_go hwf rfl (List.range d) l1
      (fun n hn => List.mem_range.1 hn) hUF1 hConn1
  obtain ⟨l3, h3run, hUF3, hConn3, hiff3, _, hdone3⟩ :=
    @canon_go (bondEdge bonds sizes d bc) sizes.prod l2
      (List.range l2.length) l2
      (fun i hi => by
        have h := List.mem_range.1 hi
        have hl := hUF2.1
        omega) hUF2 hConn2 (fun y s => Iff.rfl)
  obtain ⟨hd, hbclen, hblen, hbon, hpos⟩ := hwf
  have hdone3' : ∀ i, i < sizes.prod → IsRoot l3 (step l3 i) := by
    intro i hi
    apply hdone3
    rw [List.mem_range, hUF2.1]
    exact hi
  have hbcrun : bcPass bonds sizes (convertVec sizes d) d bc l1 = some l2 := h2run
  have hcanrun : canonPass l2 = some l3 := h3run
  refine ⟨l3, ?_, hUF3.1, hUF3.2.1, hdone3', ?_⟩
  · intro red
    simp only [hoshen_kopelman_nd]
    rw [h1run]
    simp only [Option.bind_eq_bind, Option.some_bind]
    rw [hbcrun]
    simp only [Option.some_bind]
    rw [hcanrun]
    rfl
  · intro i j hi hj
    constructor
    · intro heq
      have c1 := hConn3 i hi
      have c2 := hConn3 j hj
      rw [heq] at c1
      exact Conn.trans c1 (Conn.symm c2)
    · intro hconn
      have hkey : ∀ x y, hkConnected bonds sizes d bc x y →
          (if x < sizes.prod then step l3 x else x) =
          (if y < sizes.prod then step l3 y else y) := by
        intro x y hxy
        induction hxy with
        | refl x => rfl
        | symm _ ih => exact ih.symm
        | trans _ _ ih1 ih2 => exact ih1.trans ih2
        | base hedge =>
          rename_i x y
          obtain ⟨c, n, hcmem, hn, hact, hx, hdisj⟩ := hedge
          have hcc := mem_coordsList.1 hcmem
          have hnlen : n < sizes.length := by omega
          have hxN : flatIdx sizes c < sizes.prod := flatIdx_lt hcmem
          have hcn_lt : c.getD n 0 < sizes.getD n 0 := coordsList_getD_lt hcmem hnlen
          rcases hdisj with ⟨hnz, hy⟩ | ⟨h0, hpchar, hy⟩
          · -- interior edge, merged by the main sweep
            have hsetmem : c.set n (c.getD n 0 - 1) ∈ coordsList sizes :=
              coordsList_set_mem hcmem (by omega)
            have hyN : flatIdx sizes (c.set n (c.getD n 0 - 1)) < sizes.prod :=
              flatIdx_lt hsetmem
            have hstr_pos : 0 < (sizes.drop (n+1)).prod := stride_pos hpos n
            have hflatset : flatIdx sizes (c.set n (c.getD n 0 - 1)) =
                flatIdx sizes c - (sizes.drop (n+1)).prod := by
              have hset := flatIdx_set hcc n (c.getD n 0 - 1) hnlen
              have hsub : (c.getD n 0 - 1) * (sizes.drop (n+1)).prod =
                  c.getD n 0 * (sizes.drop (n+1)).prod - (sizes.drop (n+1)).prod :=
                Nat.sub_one_mul _ _
              have hA : (sizes.drop (n+1)).prod ≤ c.getD n 0 * (sizes.drop (n+1)).prod :=
                Nat.le_mul_of_pos_left _ (by omega)
              have hge := flatIdx_ge hcc n hnlen
              omega
            have hsr1 : sameRoot l1 (flatIdx sizes c)
                (flatIdx sizes c - (sizes.drop (n+1)).prod) :=
              hEdges1 c hcmem hxN n hn hnz hact
            have hsr2 := hpers2 _ _ hsr1
            have heq3 := (canon_root_eq hiff3 hdone3' hxN hyN).2 (by
              rw [hflatset]
              exact hsr2)
            subst hx
            subst hy
            rw [if_pos hxN, if_pos hyN]
            exact heq3
          · -- wraparound edge, merged by the boundary pass
            have hsize_pos : 0 < sizes.getD n 0 := by omega
            have hsetmem : c.set n (sizes.getD n 0 - 1) ∈ coordsList sizes :=
              coordsList_set_mem hcmem (by omega)
            have hyN : flatIdx sizes (c.set n (sizes.getD n 0 - 1)) < sizes.prod :=
              flatIdx_lt hsetmem
            have hcbc : c ∈ bcPositions sizes n := (mem_bcPositions hpos hnlen).2 ⟨hcmem, h0⟩
            have hsr2 := hwrap2 n (List.mem_range.2 hn) hpchar c hcbc hact
            have heq3 := (canon_root_eq hiff3 hdone3' hxN hyN).2 hsr2
            subst hx
            subst hy
            rw [if_pos hxN, if_pos hyN]
            exact heq3
      have := hkey i j hconn
      rw [if_pos hi, if_pos hj] at this
      exact this

theorem getD_eq_step {labels : List Nat} {i : Nat} (h : i < labels.length) :
    labels.getD i 0 = step labels i := by
  rw [List.getD_eq_getElem _ _ h, step, List.getD_eq_getElem _ _ h]

/-- C1: for every well-formed input (`d` bond arrays matching `sizes`, a
boundary-condition character in `{o, p}` per axis), `hoshen_kopelman_nd`
succeeds and the returned label array satisfies: two sites carry the same
label exactly when they are connected by a path of active bonds, where the
bond entry at coordinate `0` along an axis links to the opposite end of
that axis only when that axis's boundary condition is `'p'`
(`bondEdge`/`hkConnected`). -/
theorem claim_C1 (bonds : List (List Int)) (sizes : List Nat) (d : Nat) (bc : List Char)
    (hwf : HKWF bonds sizes d bc) :
    ∃ labels, hoshen_kopelman_nd bonds sizes d bc false = some labels ∧
      ∀ i j, i < sizes.prod → j < sizes.prod →
        (labels.getD i 0 = labels.getD j 0 ↔ hkConnected bonds sizes d bc i j) := by
  obtain ⟨l3, hrun, hlen, _, _, hiff⟩ := hk_run hwf
  refine ⟨l3, ?_, ?_⟩
  · have := hrun false
    simpa using this
  · intro i j hi hj
    rw [getD_eq_step (by omega), getD_eq_step (by omega)]
    exact hiff i j hi hj

theorem claim_C1_witness :
    ∃ labels, hoshen_kopelman_nd [[1, 1]] [2] 1 ['p'] false = some labels ∧
      ∀ i j, i < List.prod [2] → j < List.prod [2] →
        (labels.getD i 0 = labels.getD j 0 ↔ hkConnected [[1, 1]] [2] 1 ['p'] i j) :=
  claim_C1 [[1, 1]] [2] 1 ['p'] (by
    refine ⟨rfl, rfl, rfl, ?_, ?_⟩ <;> decide)

/-- C10: on well-formed input the label array stays a forest throughout the
call (the invariants `UFInv`/`MainInv` proved above), so every internal
`find` terminates without indexing out of range; in the embedding, where a
diverging or out-of-range `find` yields `none`, the whole call returns
`some`. -/
theorem claim_C10 (bonds : List (List Int)) (sizes : List Nat) (d : Nat) (bc : List Char)
    (reduce : Bool) (hwf : HKWF bonds sizes d bc) :
    (hoshen_kopelman_nd bonds sizes d bc reduce).isSome := by
  obtain ⟨l3, hrun, _⟩ := hk_run hwf
  rw [hrun reduce]
  rfl

theorem claim_C10_witness :
    (hoshen_kopelman_nd [[1, 0, 1, 1], [1, 1, 0, 0]] [2, 2] 2 ['p', 'o'] true).isSome :=
  claim_C10 [[1, 0, 1, 1], [1, 1, 0, 0]] [2, 2] 2 ['p', 'o'] true (by
    refine ⟨rfl, rfl, rfl, ?_, ?_⟩ <;> decide)

/-- In one dimension, a run of active bonds connects every site to site 0. -/
theorem chain_conn_1d {b : List Int} {N : Nat} (hb : ∀ v ∈ b, v ≠ (0 : Int))
    (hlen : b.length = N) (bc : List Char) :
    ∀ i, i < N → hkConnected [b] [N] 1 bc i 0 := by
  intro i
  induction i with
  | zero => intro _; exact Conn.refl 0
  | succ i ih =>
    intro hi
    have hflat : ∀ x : Nat, flatIdx [N] [x] = x := by
      intro x
      rw [flatIdx_cons]
      simp [flatIdx_nil]
    have hedge : bondEdge [b] [N] 1 bc (i+1) i := by
      refine ⟨[i+1], 0, ?_, Nat.one_pos, ?_, (hflat (i+1)).symm, Or.inl ⟨?_, ?_⟩⟩
      · rw [mem_coordsList]
        exact List.Forall₂.cons hi List.Forall₂.nil
      · rw [hflat]
        simp only [List.getD_cons_zero]
        have hib : i + 1 < b.length := by omega
        rw [List.getD_eq_getElem _ _ hib]
        exact hb _ (List.getElem_mem hib)
      · simp
      · simp only [List.getD_cons_zero, List.set_cons_zero]
        rw [hflat]
        simp
    exact Conn.trans (Conn.base hedge) (ih (by omega))

/-- C5: for every `N ≥ 1`, a fully periodic 1d lattice whose `N` bond
entries are all active is labeled as one single cluster: all `N` sites
carry the same label. -/
theorem claim_C5 (N : Nat) (b : List Int) (hN : 1 ≤ N) (hlen : b.length = N)
    (hb : ∀ v ∈ b, v ≠ (0 : Int)) :
    ∃ labels, hoshen_kopelman_nd [b] [N] 1 ['p'] false = some labels ∧
      ∀ i j, i < N → j < N → labels.getD i 0 = labels.getD j 0 := by
  have hwf : HKWF [b] [N] 1 ['p'] := by
    refine ⟨rfl, rfl, rfl, ?_, ?_⟩
    · intro b' hb'
      rw [List.mem_singleton] at hb'
      subst hb'
      simpa using hlen
    · intro s hs
      rw [List.mem_singleton] at hs
      omega
  obtain ⟨l3, hrun, hlen3, _, _, hiff⟩ := hk_run hwf
  have hprod : List.prod [N] = N := by simp
  refine ⟨l3, by simpa using hrun false, ?_⟩
  intro i j hi hj
  rw [getD_eq_step (by omega), getD_eq_step (by omega)]
  refine (hiff i j (by omega) (by omega)).2 ?_
  exact Conn.trans (chain_conn_1d hb hlen ['p'] i hi)
    (Conn.symm (chain_conn_1d hb hlen ['p'] j hj))

theorem claim_C5_witness :
    ∃ labels, hoshen_kopelman_nd [[1, 1, 1]] [3] 1 ['p'] false = some labels ∧
      ∀ i j, i < 3 → j < 3 → labels.getD i 0 = labels.getD j 0 :=
  claim_C5 3 [1, 1, 1] (by omega) rfl (by decide)

/-- C3: for every label array and every start `x` whose chain
`x, labels[x], ...` stays in range and reaches a fixed point, `find`
returns the first root on that chain (and, being a pure function like the
source, which performs no assignment, it leaves the array unchanged). -/
theorem claim_C3 (labels : List Nat) (x k : Nat)
    (hin : ∀ j, j ≤ k → iter labels j x < labels.length)
    (hroot : IsRoot labels (iter labels k x)) :
    ∃ m, m ≤ k ∧ IsRoot labels (iter labels m x) ∧
      (∀ j, j < m → ¬ IsRoot labels (iter labels j x)) ∧
      ∀ fuel, m < fuel → find labels fuel x = some (iter labels m x) := by
  have hex : ∃ j, IsRoot labels (iter labels j x) := ⟨k, hroot⟩
  have hm := Nat.find_spec hex
  have hmin : ∀ j, j < Nat.find hex → ¬ IsRoot labels (iter labels j x) :=
    fun j hj => Nat.find_min hex hj
  have hmk : Nat.find hex ≤ k := Nat.find_min' hex hroot
  refine ⟨Nat.find hex, hmk, hm, hmin, ?_⟩
  intro fuel hf
  exact find_of_chain (Nat.find hex) x fuel
    (fun j hj => hin j (by omega)) hmin hm hf

theorem claim_C3_witness :
    ∃ m, m ≤ 2 ∧ IsRoot [1, 2, 2] (iter [1, 2, 2] m 0) ∧
      (∀ j, j < m → ¬ IsRoot [1, 2, 2] (iter [1, 2, 2] j 0)) ∧
      ∀ fuel, m < fuel → find [1, 2, 2] fuel 0 = some (iter [1, 2, 2] m 0) :=
  claim_C3 [1, 2, 2] 0 2 (by decide) (by decide)

/-- An axis scan over axes that all have a zero component or an inactive
bond does nothing. -/
theorem axisScanAux_none {bonds : List (List Int)} {sizes cv : List Nat} {d : Nat}
    {c : List Nat} : ∀ (rem n : Nat) (labels : List Nat), n + rem = d →
    (∀ m, n ≤ m → m < d →
      c.getD m 0 = 0 ∨ (bonds.getD m []).getD (flatIdx sizes c) 0 = 0) →
    axisScanAux bonds sizes cv d c rem n labels = some labels := by
  intro rem
  induction rem with
  | zero => intro n labels _ _; rfl
  | succ rem ih =>
    intro n labels hnd hno
    unfold axisScanAux
    rcases hno n (le_refl n) (by omega) with h0 | h0
    · rw [if_neg (fun hh => hh h0)]
      exact ih (n+1) labels (by omega) (fun m hm1 hm2 => hno m (by omega) hm2)
    · by_cases hz : c.getD n 0 ≠ 0
      · rw [if_pos hz, if_neg (fun hh => hh h0)]
        exact ih (n+1) labels (by omega) (fun m hm1 hm2 => hno m (by omega) hm2)
      · rw [if_neg hz]
        exact ih (n+1) labels (by omega) (fun m hm1 hm2 => hno m (by omega) hm2)

/-- An axis scan reaching axis `n`, the first axis with both a nonzero
component and an active bond, performs the primary union at `n`, runs `n`'s
cross-term loop and stops. -/
theorem axisScanAux_first {bonds : List (List Int)} {sizes cv : List Nat} {d : Nat}
    {c : List Nat} : ∀ (rem m : Nat) (labels : List Nat) (n : Nat), m + rem = d →
    m ≤ n → n < d →
    c.getD n 0 ≠ 0 → (bonds.getD n []).getD (flatIdx sizes c) 0 ≠ 0 →
    (∀ k, m ≤ k → k < n →
      c.getD k 0 = 0 ∨ (bonds.getD k []).getD (flatIdx sizes c) 0 = 0) →
    axisScanAux bonds sizes cv d c rem m labels = (do
      let r ← find labels labels.length (dotL c cv - cv.getD n 0)
      (List.range' (n+1) (d-(n+1))).foldlM (crossStep bonds sizes cv c (dotL c cv))
        (labels.set (dotL c cv) r)) := by
  intro rem
  induction rem with
  | zero => intro m labels n hmd hmn hnd _ _ _; omega
  | succ rem ih =>
    intro m labels n hmd hmn hnd hnz hact hmin
    by_cases heq : m = n
    · subst heq
      unfold axisScanAux
      rw [if_pos hnz, if_pos hact]
    · have hlt : m < n := by omega
      unfold axisScanAux
      rcases hmin m (le_refl m) hlt with h0 | h0
      · rw [if_neg (fun hh => hh h0)]
        exact ih (m+1) labels n (by omega) (by omega) hnd hnz hact
          (fun k hk1 hk2 => hmin k (by omega) hk2)
      · by_cases hz : c.getD m 0 ≠ 0
        · rw [if_pos hz, if_neg (fun hh => hh h0)]
          exact ih (m+1) labels n (by omega) (by omega) hnd hnz hact
            (fun k hk1 hk2 => hmin k (by omega) hk2)
        · rw [if_neg hz]
          exact ih (m+1) labels n (by omega) (by omega) hnd hnz hact
            (fun k hk1 hk2 => hmin k (by omega) hk2)

/-- C2 (amended): the axis scan of one site visit stops after the first
axis whose coordinate component is nonzero AND whose bond entry is active;
an axis with nonzero component but inactive bond lets the scan continue to
later axes.  If no axis has both, the visit leaves the labels untouched;
otherwise the visit performs exactly one primary union, at that first
active axis, followed by that axis's cross-term loop. -/
theorem claim_C2 (bonds : List (List Int)) (sizes cv : List Nat) (d : Nat)
    (c labels : List Nat) :
    ((∀ n, n < d → c.getD n 0 = 0 ∨ (bonds.getD n []).getD (flatIdx sizes c) 0 = 0) →
      axisScan bonds sizes cv d c labels = some labels) ∧
    (∀ n, n < d → c.getD n 0 ≠ 0 → (bonds.getD n []).getD (flatIdx sizes c) 0 ≠ 0 →
      (∀ m, m < n → c.getD m 0 = 0 ∨ (bonds.getD m []).getD (flatIdx sizes c) 0 = 0) →
      axisScan bonds sizes cv d c labels = (do
        let r ← find labels labels.length (dotL c cv - cv.getD n 0)
        (List.range' (n+1) (d-(n+1))).foldlM (crossStep bonds sizes cv c (dotL c cv))
          (labels.set (dotL c cv) r))) := by
  constructor
  · intro hno
    exact axisScanAux_none d 0 labels (by omega) (fun m _ hm2 => hno m hm2)
  · intro n hnd hnz hact hmin
    exact axisScanAux_first d 0 labels n (by omega) (by omega) hnd hnz hact
      (fun k _ hk2 => hmin k hk2)

theorem claim_C2_witness :
    axisScan [[0, 0, 0, 0], [0, 0, 0, 1]] [2, 2] [2, 1] 2 [1, 1] [0, 1, 2, 3] = (do
      let r ← find [0, 1, 2, 3] (List.length [0, 1, 2, 3])
        (dotL [1, 1] [2, 1] - List.getD [2, 1] 1 0)
      (List.range' (1+1) (2-(1+1))).foldlM
        (crossStep [[0, 0, 0, 0], [0, 0, 0, 1]] [2, 2] [2, 1] [1, 1] (dotL [1, 1] [2, 1]))
        (List.set [0, 1, 2, 3] (dotL [1, 1] [2, 1]) r)) :=
  (claim_C2 [[0, 0, 0, 0], [0, 0, 0, 1]] [2, 2] [2, 1] 2 [1, 1] [0, 1, 2, 3]).2 1
    (by decide) (by decide) (by decide) (by decide)

/-- C2 counterexample: at coordinate `(1, 1)` of a `2x2` lattice with the
axis-0 bond inactive and the axis-1 bond active, the code's scan does not
stop at axis 0 (whose component is nonzero): it continues and performs a
primary union at axis 1, unlike the spec's break-at-first-nonzero-component
variant, which performs no union at all. -/
theorem claim_C2_cex :
    axisScan [[0, 0, 0, 0], [0, 0, 0, 1]] [2, 2] [2, 1] 2 [1, 1] [0, 1, 2, 3] =
      some [0, 1, 2, 2] ∧
    axisScanSpecBreak [[0, 0, 0, 0], [0, 0, 0, 1]] [2, 2] [2, 1] 2 [1, 1] [0, 1, 2, 3] =
      some [0, 1, 2, 3] ∧
    some [0, 1, 2, 2] ≠ some ([0, 1, 2, 3] : List Nat) := by
  refine ⟨?_, ?_, ?_⟩ <;> decide

theorem range_map_getD {α : Type} (f : Nat → α) (d n : Nat) (hn : n < d) (dflt : α) :
    ((List.range d).map f).getD n dflt = f n := by
  have hlt : n < ((List.range d).map f).length := by simpa using hn
  rw [List.getD_eq_getElem _ _ hlt, List.getElem_map, List.getElem_range]

theorem npRoll_length (state : List Int) (sizes : List Nat) (n : Nat) :
    (npRoll state sizes n).length = sizes.prod := by
  unfold npRoll
  rw [List.length_map, coordsList_length]

theorem npRoll_getD (state : List Int) (sizes : List Nat) (n : Nat) {c : List Nat}
    (hc : c ∈ coordsList sizes) :
    (npRoll state sizes n).getD (flatIdx sizes c) 0 =
      state.getD (flatIdx sizes (rollCoord sizes n c)) 0 := by
  obtain ⟨hp, hcg⟩ := coordsList_getElem_of_mem hc
  unfold npRoll
  have hlt : flatIdx sizes c <
      ((coordsList sizes).map
        (fun c => state.getD (flatIdx sizes (rollCoord sizes n c)) 0)).length := by
    simpa using hp
  rw [List.getD_eq_getElem _ _ hlt, List.getElem_map, hcg]

theorem zipWith_getD {α : Type} (f : α → α → α) (A B : List α) (p : Nat) (dflt : α)
    (hA : p < A.length) (hB : p < B.length) :
    (List.zipWith f A B).getD p dflt = f (A.getD p dflt) (B.getD p dflt) := by
  have hlt : p < (List.zipWith f A B).length := by
    rw [List.length_zipWith]; omega
  rw [List.getD_eq_getElem _ _ hlt, List.getElem_zipWith,
    List.getD_eq_getElem _ _ hA, List.getD_eq_getElem _ _ hB]

/-- C4: for every numeric state array of the lattice shape and every axis
`n < d`, the bond array returned by `get_bonds_nd` holds at each coordinate
the product `state[coords] * state[coords - e_n]` (predecessor wrapping at
the axis-`n` boundary, `rollCoord`) under `bond_type='one'`, and the
indicator of `state[coords - e_n] == state[coords]` under
`bond_type='all'`. -/
theorem claim_C4 (state : List Int) (sizes : List Nat) (d n : Nat) (c : List Nat)
    (hlen : state.length = sizes.prod) (hn : n < d) (hc : c ∈ coordsList sizes) :
    ((get_bonds_nd state sizes d .one).getD n []).getD (flatIdx sizes c) 0 =
      state.getD (flatIdx sizes c) 0 * state.getD (flatIdx sizes (rollCoord sizes n c)) 0 ∧
    ((get_bonds_nd state sizes d .all).getD n []).getD (flatIdx sizes c) 0 =
      (if state.getD (flatIdx sizes (rollCoord sizes n c)) 0 =
          state.getD (flatIdx sizes c) 0 then 1 else 0) := by
  have hp : flatIdx sizes c < sizes.prod := flatIdx_lt hc
  have hA : flatIdx sizes c < (npRoll state sizes n).length := by
    rw [npRoll_length]; omega
  have hB : flatIdx sizes c < state.length := by omega
  have hone : (get_bonds_nd state sizes d .one).getD n [] =
      List.zipWith (· * ·) (npRoll state sizes n) state := by
    show (((List.range d).map (fun k => npRoll state sizes k)).map
        (fun roll => List.zipWith (· * ·) roll state)).getD n [] = _
    rw [List.map_map]
    exact range_map_getD _ d n hn []
  have hall : (get_bonds_nd state sizes d .all).getD n [] =
      List.zipWith (fun a b => if a = b then (1 : Int) else 0) (npRoll state sizes n) state := by
    show (((List.range d).map (fun k => npRoll state sizes k)).map
        (fun roll => List.zipWith (fun a b => if a = b then (1 : Int) else 0) roll state)).getD
          n [] = _
    rw [List.map_map]
    exact range_map_getD _ d n hn []
  constructor
  · rw [hone, zipWith_getD _ _ _ _ _ hA hB, npRoll_getD state sizes n hc]
    exact Int.mul_comm _ _
  · rw [hall, zipWith_getD _ _ _ _ _ hA hB, npRoll_getD state sizes n hc]

theorem claim_C4_witness :
    ((get_bonds_nd [1, 0, 1, 1] [2, 2] 2 .one).getD 1 []).getD (flatIdx [2, 2] [1, 1]) 0 =
      List.getD [1, 0, 1, 1] (flatIdx [2, 2] [1, 1]) 0 *
        List.getD [1, 0, 1, 1] (flatIdx [2, 2] (rollCoord [2, 2] 1 [1, 1])) 0 ∧
    ((get_bonds_nd [1, 0, 1, 1] [2, 2] 2 .all).getD 1 []).getD (flatIdx [2, 2] [1, 1]) 0 =
      (if List.getD [1, 0, 1, 1] (flatIdx [2, 2] (rollCoord [2, 2] 1 [1, 1])) 0 =
          List.getD [1, 0, 1, 1] (flatIdx [2, 2] [1, 1]) 0 then 1 else 0) :=
  claim_C4 [1, 0, 1, 1] [2, 2] 2 1 [1, 1] (by decide) (by decide) (by decide)

/-- C7 (amended): on the 1d size-4 lattice with interior bonds `1, 0, 1` at
sites 1, 2, 3 and periodic boundary conditions, the pairs `{0,1}` and
`{2,3}` each share a label; when the wraparound bond entry is active the
boundary pass merges sites 3 and 0 so that all four sites form one single
cluster; when it is inactive the result has exactly the two pair clusters
and equals the labels computed by the open (main) pass alone, unaffected by
the boundary pass. -/
theorem claim_C7 :
    hoshen_kopelman_nd [[1, 1, 0, 1]] [4] 1 ['p'] false = some [0, 0, 0, 0] ∧
    hoshen_kopelman_nd [[0, 1, 0, 1]] [4] 1 ['p'] false = some [0, 0, 2, 2] ∧
    (coordsList [4]).foldlM
      (fun labels c => axisScan [[0, 1, 0, 1]] [4] (convertVec [4] 1) 1 c labels)
      (List.range (List.prod [4])) = some [0, 0, 2, 2] ∧
    ([0, 0, 2, 2] : List Nat).dedup.length = 2 ∧
    ([0, 0, 0, 0] : List Nat).dedup.length = 1 := by
  refine ⟨?_, ?_, ?_, ?_, ?_⟩ <;> decide

/-- C7 counterexample: with the wraparound bond entry active (as the claim
posits), `hoshen_kopelman_nd` returns one single cluster covering all four
sites, not two clusters. -/
theorem claim_C7_cex :
    hoshen_kopelman_nd [[1, 1, 0, 1]] [4] 1 ['p'] false = some [0, 0, 0, 0] ∧
    ([0, 0, 0, 0] : List Nat).dedup.length ≠ 2 := by
  refine ⟨?_, ?_⟩ <;> decide

theorem excludeLC_getD {labels : List Nat} {lc i : Nat} (hi : i < labels.length) :
    (excludeLC labels lc).getD i 0 =
      if labels.getD i 0 = lc then i else labels.getD i 0 := by
  unfold excludeLC
  have hlt : i < (labels.enum.map (fun p => if p.2 = lc then p.1 else p.2)).length := by
    simp only [List.length_map, List.enum_length]
    omega
  rw [List.getD_eq_getElem _ _ hlt, List.getElem_map, List.getElem_enum,
    List.getD_eq_getElem _ _ hi]

/-- The well-formedness of the input that `analysis` passes to the
labeler. -/
theorem analysis_hkwf {binned : List Int} {size : Nat}
    (hbin : binned.length = size * size) (hs : 0 < size) :
    HKWF (get_bonds_nd binned [size, size] 2 .one) [size, size] 2 ['p', 'p'] := by
  have hprod : List.prod [size, size] = size * size := by simp
  refine ⟨rfl, rfl, ?_, ?_, ?_⟩
  · show (((List.range 2).map (fun n => npRoll binned [size, size] n)).map
      (fun roll => List.zipWith (· * ·) roll binned)).length = 2
    simp
  · intro b hb
    have hb' : b ∈ ((List.range 2).map (fun n => npRoll binned [size, size] n)).map
        (fun roll => List.zipWith (· * ·) roll binned) := hb
    rw [List.map_map] at hb'
    obtain ⟨n, _, rfl⟩ := List.mem_map.1 hb'
    show (List.zipWith (· * ·) (npRoll binned [size, size] n) binned).length = _
    rw [List.length_zipWith, npRoll_length, hprod, hbin]
    simp
  · intro s hs'
    rcases List.mem_cons.1 hs' with rfl | hs''
    · exact hs
    · rcases List.mem_cons.1 hs'' with rfl | h
      · exact hs
      · exact absurd h (List.not_mem_nil s)

/-- C9: in `analysis` with `LC='exclude'`, after every site of the largest
cluster is replaced by its own flat index, no replacement value collides
with the label of a site outside the largest cluster (retained labels are
fixed-point root indices of non-largest clusters), so two distinct sites
share a label after the substitution exactly when they had the same label
before and that label is not the largest cluster's. -/
theorem claim_C9 (binned : List Int) (size : Nat) (labels : List Nat)
    (hbin : binned.length = size * size)
    (hrun : hoshen_kopelman_nd (get_bonds_nd binned [size, size] 2 .one) [size, size] 2
      ['p', 'p'] false = some labels) :
    ∀ i j, i < size * size → j < size * size → i ≠ j →
      ((excludeLC labels (mostCommon1 labels).1).getD i 0 =
        (excludeLC labels (mostCommon1 labels).1).getD j 0 ↔
        (labels.getD i 0 = labels.getD j 0 ∧
          labels.getD i 0 ≠ (mostCommon1 labels).1)) := by
  rcases Nat.eq_zero_or_pos size with rfl | hs
  · intro i j hi _ _
    omega
  have hprod : List.prod [size, size] = size * size := by simp
  obtain ⟨l3, hrunR, hlen3, hb3, hroots3, _⟩ := hk_run (analysis_hkwf hbin hs)
  have heq : labels = l3 := by
    have h0 := hrunR false
    simp only [if_neg (Bool.false_ne_true)] at h0
    rw [hrun] at h0
    exact Option.some_inj.1 h0
  subst heq
  rw [hprod] at hlen3 hb3 hroots3
  have hidem : ∀ i, i < size * size →
      labels.getD (labels.getD i 0) 0 = labels.getD i 0 := by
    intro i hi
    have hv : labels.getD i 0 = step labels i := getD_eq_step (by omega)
    have hvN : step labels i < size * size := step_lt hlen3 hb3 hi
    have hroot := hroots3 i hi
    rw [hv, getD_eq_step (by omega)]
    exact hroot
  intro i j hi hj hij
  have hvi : labels.getD i 0 < size * size := by
    rw [getD_eq_step (by omega)]
    exact step_lt hlen3 hb3 hi
  have hvj : labels.getD j 0 < size * size := by
    rw [getD_eq_step (by omega)]
    exact step_lt hlen3 hb3 hj
  rw [excludeLC_getD (by omega), excludeLC_getD (by omega)]
  by_cases hiL : labels.getD i 0 = (mostCommon1 labels).1
  · by_cases hjL : labels.getD j 0 = (mostCommon1 labels).1
    · rw [if_pos hiL, if_pos hjL]
      constructor
      · intro h; exact absurd h hij
      · rintro ⟨_, hne⟩; exact absurd hiL hne
    · rw [if_pos hiL, if_neg hjL]
      constructor
      · intro h
        exfalso
        apply hjL
        rw [← hiL, h]
        exact (hidem j hj).symm
      · rintro ⟨hlab, hne⟩
        exact absurd hiL hne
  · by_cases hjL : labels.getD j 0 = (mostCommon1 labels).1
    · rw [if_neg hiL, if_pos hjL]
      constructor
      · intro h
        exfalso
        apply hiL
        rw [← hjL, ← h]
        exact (hidem i hi).symm
      · rintro ⟨hlab, _⟩
        exact absurd (hlab.trans hjL) hiL
    · rw [if_neg hiL, if_neg hjL]
      constructor
      · intro h
        exact ⟨h, hiL⟩
      · rintro ⟨hlab, _⟩
        exact hlab

/-! Gap-size statistics. -/

theorem sum_set_incr : ∀ (l : List Nat) (g v : Nat), g < l.length →
    (l.set g (l.getD g 0 + v)).sum = l.sum + v := by
  intro l
  induction l with
  | nil => intro g v hg; simp at hg
  | cons a l ih =>
    intro g v hg
    cases g with
    | zero =>
      simp only [List.getD_cons_zero, List.set_cons_zero, List.sum_cons]
      omega
    | succ g =>
      simp only [List.getD_cons_succ, List.set_cons_succ, List.sum_cons]
      have := ih g v (by simpa using hg)
      omega

theorem upsert_length_some {k v : Nat} {m : List (Nat × Nat)}
    (h : (m.lookup k).isSome) : (upsert k v m).length = m.length := by
  unfold upsert
  rw [if_pos h, List.length_map]

theorem upsert_length_none {k v : Nat} {m : List (Nat × Nat)}
    (h : m.lookup k = none) : (upsert k v m).length = m.length + 1 := by
  unfold upsert
  rw [if_neg (by rw [h]; simp)]
  simp

theorem mem_enumFrom_lt {α : Type} : ∀ (l : List α) (n : Nat) (p : Nat × α),
    p ∈ List.enumFrom n l → p.1 < n + l.length := by
  intro l
  induction l with
  | nil => intro n p hp; simp at hp
  | cons a l ih =>
    intro n p hp
    rcases List.mem_cons.1 hp with rfl | hm
    · simp
    · have := ih (n+1) p hm
      simp only [List.length_cons]
      omega

theorem enumFrom_filter_snd (bad : Option Nat) : ∀ (l : List Nat) (n : Nat),
    ((List.enumFrom n l).filter (fun p => bad ≠ some p.2)).length =
      (l.filter (fun lab => bad ≠ some lab)).length := by
  intro l
  induction l with
  | nil => intro n; rfl
  | cons a l ih =>
    intro n
    rw [show List.enumFrom n (a :: l) = (n, a) :: List.enumFrom (n+1) l from rfl]
    rw [List.filter_cons, List.filter_cons]
    by_cases hbad : bad ≠ some a
    · rw [decide_eq_true hbad, if_pos rfl, if_pos rfl]
      simp only [List.length_cons]
      rw [ih (n+1)]
    · rw [decide_eq_false hbad, if_neg Bool.false_ne_true, if_neg Bool.false_ne_true]
      exact ih (n+1)

theorem foldl_fun_congr {α β : Type} : ∀ (l : List α) (g1 g2 : β → α → β),
    (∀ b, ∀ a ∈ l, g1 b a = g2 b a) → ∀ init, l.foldl g1 init = l.foldl g2 init := by
  intro l
  induction l with
  | nil => intro g1 g2 _ init; rfl
  | cons a l ih =>
    intro g1 g2 h init
    rw [List.foldl_cons, List.foldl_cons, h init a (List.mem_cons_self a l)]
    exact ih g1 g2 (fun b a' ha' => h b a' (List.mem_cons_of_mem a ha')) _

/-- Invariant of the in-row scan: the histogram total plus the number of
tracked labels grows by one per non-excluded entry. -/
theorem lineFold_inv (bad : Option Nat) (size : Nat) :
    ∀ (es : List (Nat × Nat)) (f : List Nat) (fs ls : List (Nat × Nat)),
    f.length = size → (∀ p ∈ es, p.1 < size) →
    (es.foldl (lineStep bad) (f, fs, ls)).1.length = size ∧
    (es.foldl (lineStep bad) (f, fs, ls)).1.sum +
      (es.foldl (lineStep bad) (f, fs, ls)).2.2.length =
    f.sum + ls.length + (es.filter (fun p => bad ≠ some p.2)).length := by
  intro es
  induction es with
  | nil =>
    intro f fs ls hf _
    exact ⟨hf, rfl⟩
  | cons e es ih =>
    intro f fs ls hf hes
    rw [List.foldl_cons, List.filter_cons]
    by_cases hbad : bad ≠ some e.2
    · rw [decide_eq_true hbad, if_pos rfl]
      simp only [List.length_cons]
      have hstep : lineStep bad (f, fs, ls) e =
          match ls.lookup e.2 with
          | some last => (f.set (e.1 - last) (f.getD (e.1 - last) 0 + 1), fs, upsert e.2 e.1 ls)
          | none => (f, upsert e.2 e.1 fs, upsert e.2 e.1 ls) := by
        unfold lineStep
        rw [if_pos hbad]
      cases hlk : ls.lookup e.2 with
      | some last =>
        rw [hstep, hlk]
        have hgap : e.1 - last < f.length := by
          have := hes e (List.mem_cons_self e es)
          omega
        have hsum := sum_set_incr f (e.1 - last) 1 hgap
        have hlen : (f.set (e.1 - last) (f.getD (e.1 - last) 0 + 1)).length = size := by
          rw [List.length_set]; exact hf
        obtain ⟨ihl, ihs⟩ := ih _ fs (upsert e.2 e.1 ls) hlen
          (fun p hp => hes p (List.mem_cons_of_mem e hp))
        refine ⟨ihl, ?_⟩
        rw [ihs, hsum, upsert_length_some (by rw [hlk]; rfl)]
        omega
      | none =>
        rw [hstep, hlk]
        obtain ⟨ihl, ihs⟩ := ih f (upsert e.2 e.1 fs) (upsert e.2 e.1 ls) hf
          (fun p hp => hes p (List.mem_cons_of_mem e hp))
        refine ⟨ihl, ?_⟩
        rw [ihs, upsert_length_none hlk]
        omega
    · rw [decide_eq_false hbad, if_neg Bool.false_ne_true]
      have hstep : lineStep bad (f, fs, ls) e = (f, fs, ls) := by
        unfold lineStep
        rw [if_neg hbad]
      rw [hstep]
      exact ih f fs ls hf (fun p hp => hes p (List.mem_cons_of_mem e hp))

/-- The wraparound loop adds one event per tracked label. -/
theorem wrapFold_sum (size : Nat) (hs : 0 < size) (fsm : List (Nat × Nat)) :
    ∀ (kvs : List (Nat × Nat)) (f : List Nat), f.length = size →
    ((kvs.foldl (fun f kv =>
        f.set ((size + (fsm.lookup kv.1).getD 0 - kv.2) % size)
          (f.getD ((size + (fsm.lookup kv.1).getD 0 - kv.2) % size) 0 + 1)) f).length = size ∧
     (kvs.foldl (fun f kv =>
        f.set ((size + (fsm.lookup kv.1).getD 0 - kv.2) % size)
          (f.getD ((size + (fsm.lookup kv.1).getD 0 - kv.2) % size) 0 + 1)) f).sum =
       f.sum + kvs.length) := by
  intro kvs
  induction kvs with
  | nil => intro f hf; exact ⟨hf, rfl⟩
  | cons kv kvs ih =>
    intro f hf
    rw [List.foldl_cons]
    have hgap : (size + (fsm.lookup kv.1).getD 0 - kv.2) % size < f.length := by
      rw [hf]
      exact Nat.mod_lt _ hs
    have hsum := sum_set_incr f _ 1 hgap
    have hlen : (f.set ((size + (fsm.lookup kv.1).getD 0 - kv.2) % size)
        (f.getD ((size + (fsm.lookup kv.1).getD 0 - kv.2) % size) 0 + 1)).length = size := by
      rw [List.length_set]; exact hf
    obtain ⟨ihl, ihs⟩ := ih _ hlen
    refine ⟨ihl, ?_⟩
    rw [ihs, hsum, List.length_cons]
    omega

/-- One row of the periodic gap scan adds exactly one histogram event per
non-excluded entry of the line. -/
theorem processRow_sum (size : Nat) (bad : Option Nat) (f line : List Nat)
    (hf : f.length = size) (hs : 0 < size) (hline : line.length ≤ size) :
    (processRow size bad true f line).length = size ∧
    (processRow size bad true f line).sum =
      f.sum + (line.filter (fun lab => bad ≠ some lab)).length := by
  have hes : ∀ p ∈ line.enum, p.1 < size := by
    intro p hp
    have := mem_enumFrom_lt line 0 p hp
    omega
  obtain ⟨h1len, h1sum⟩ := lineFold_inv bad size line.enum f [] [] hf hes
  have hfsnd : ((line.enum.filter (fun p => bad ≠ some p.2)).length) =
      (line.filter (fun lab => bad ≠ some lab)).length := enumFrom_filter_snd bad line 0
  unfold processRow
  rw [if_pos rfl]
  obtain ⟨hwl, hws⟩ := wrapFold_sum size hs
    (line.enum.foldl (lineStep bad) (f, [], [])).2.1
    (line.enum.foldl (lineStep bad) (f, [], [])).2.2
    (line.enum.foldl (lineStep bad) (f, [], [])).1 h1len
  refine ⟨hwl, ?_⟩
  rw [hws]
  simp only [List.length_nil, Nat.add_zero] at h1sum
  omega

/-- A whole scan direction over a `size x size` grid with periodic rows
adds one event per non-excluded site. -/
theorem pass_sum (size : Nat) (bad : Option Nat) (hs : 0 < size) :
    ∀ (k : Nat) (lab f : List Nat), f.length = size → lab.length = size * k →
    (((List.range k).foldl
        (fun f row => processRow size bad true f ((lab.drop (row*size)).take size)) f).length
      = size ∧
     ((List.range k).foldl
        (fun f row => processRow size bad true f ((lab.drop (row*size)).take size)) f).sum =
      f.sum + (lab.filter (fun l => bad ≠ some l)).length) := by
  intro k
  induction k with
  | zero =>
    intro lab f hf hlab
    have : lab = [] := List.length_eq_zero.1 (by omega)
    subst this
    exact ⟨hf, rfl⟩
  | succ k ih =>
    intro lab f hf hlab
    rw [List.range_succ_eq_map, List.foldl_cons, List.foldl_map]
    have htake : ((lab.drop (0*size)).take size) = lab.take size := by
      rw [Nat.zero_mul, List.drop_zero]
    rw [htake]
    obtain ⟨h1len, h1sum⟩ := processRow_sum size bad f (lab.take size) hf hs (by
      rw [List.length_take]
      omega)
    have hfold_eq : ∀ (g : List Nat),
        (List.range k).foldl
          (fun x y => processRow size bad true x ((lab.drop (Nat.succ y * size)).take size)) g =
        (List.range k).foldl
          (fun x y => processRow size bad true x
            (((lab.drop size).drop (y*size)).take size)) g := by
      intro g
      apply foldl_fun_congr
      intro b a _
      congr 2
      rw [List.drop_drop]
      congr 1
      rw [Nat.succ_mul]
      ring
    rw [hfold_eq]
    obtain ⟨ihl, ihs⟩ := ih (lab.drop size) _ h1len (by
      rw [List.length_drop, hlab]
      have hmul : size * (k + 1) = size * k + size := by ring
      omega)
    refine ⟨ihl, ?_⟩
    rw [ihs, h1sum]
    have hsplit : lab = lab.take size ++ lab.drop size := (List.take_append_drop size lab).symm
    conv_rhs => rw [hsplit]
    rw [List.filter_append, List.length_append]
    omega

/-- C6 (amended): over one scan direction with periodic rows, the
pre-normalization histogram gains one event per non-excluded entry of each
line (each repeat occurrence of a label gives an in-row event, and each
label seen gives one wraparound event), so its total is the number of
non-excluded sites; the returned array is the accumulated histogram
divided by `size` (`2*size` when `both_directions` is set). -/
theorem claim_C6 (labels : List Nat) (size : Nat) (bad : Option Nat) (bc : Char)
    (both_directions : Bool) (hlen : labels.length = size * size) (hs : 0 < size) :
    (gapstatLoop labels size 'p' false bad).1.sum =
      (labels.filter (fun lab => bad ≠ some lab)).length ∧
    (gapstatLoop labels size bc both_directions bad).2 =
      (if both_directions then 2 * size else size) ∧
    get_gapstat_2d labels size bc both_directions bad =
      (gapstatLoop labels size bc both_directions bad).1.map
        (fun cnt => (cnt : ℚ) / (if both_directions then 2 * size else size)) := by
  have hnorm : (gapstatLoop labels size bc both_directions bad).2 =
      (if both_directions then 2 * size else size) := by
    cases both_directions
    · rfl
    · show size * 2 = 2 * size
      exact Nat.mul_comm size 2
  refine ⟨?_, hnorm, ?_⟩
  · show (gapstatPass labels size bad (decide ('p' = 'p')) (List.replicate size 0)).sum = _
    have hdec : (decide ('p' = 'p')) = true := by decide
    rw [hdec]
    obtain ⟨_, hsum⟩ := pass_sum size bad hs size labels (List.replicate size 0)
      (List.length_replicate size 0) hlen
    unfold gapstatPass gridRow
    rw [hsum]
    simp
  · show (gapstatLoop labels size bc both_directions bad).1.map
        (fun cnt => (cnt : ℚ) / ((gapstatLoop labels size bc both_directions bad).2 : ℚ)) = _
    rw [hnorm]

theorem claim_C6_witness :
    (gapstatLoop (List.replicate 9 7) 3 'p' false none).1.sum =
      ((List.replicate 9 7).filter (fun lab => none ≠ some lab)).length ∧
    (gapstatLoop (List.replicate 9 7) 3 'p' false none).2 = (if false then 2 * 3 else 3) ∧
    get_gapstat_2d (List.replicate 9 7) 3 'p' false none =
      (gapstatLoop (List.replicate 9 7) 3 'p' false none).1.map
        (fun cnt => (cnt : ℚ) / (if false then 2 * 3 else 3)) :=
  claim_C6 (List.replicate 9 7) 3 none 'p' false (by decide) (by decide)

/-- C6 counterexample: on the all-equal `3x3` label grid, one periodic scan
direction accumulates 9 events before normalization (two in-row repeats
and one wraparound event per row), while the claim's formula (labels with
at least two occurrences per line, plus one wrap event per label seen)
predicts 6. -/
theorem claim_C6_cex :
    (gapstatLoop (List.replicate 9 7) 3 'p' false none).1.sum = 9 ∧
    claimGapSum (List.replicate 9 7) 3 none = 6 ∧ (9 : Nat) ≠ 6 := by
  refine ⟨?_, ?_, ?_⟩ <;> decide

/-! The corner contribution. -/

theorem getD_set_ne {α : Type} (l : List α) (a b : Nat) (v d : α) (h : b ≠ a) :
    (l.set a v).getD b d = l.getD b d := by
  rw [List.getD_eq_getElem?_getD, List.getD_eq_getElem?_getD,
    List.getElem?_set_ne (Ne.symm h)]

theorem getD_map_q (f : Nat → ℚ) (l : List Nat) (i : Nat) (h : i < l.length) :
    (l.map f).getD i 0 = f (l.getD i 0) := by
  rw [List.getD_eq_getElem _ _ (by simpa using h), List.getElem_map,
    List.getD_eq_getElem _ _ h]

theorem dotQ_eq_sum : ∀ (A B : List ℚ), A.length ≤ B.length →
    dotQ A B = ∑ i ∈ Finset.range A.length, A.getD i 0 * B.getD i 0 := by
  intro A
  induction A with
  | nil => intro B _; simp [dotQ]
  | cons a as ih =>
    intro B hB
    cases B with
    | nil => simp at hB
    | cons b bs =>
      show a * b + dotQ as bs = _
      rw [ih bs (by simpa using hB), List.length_cons, Finset.sum_range_succ']
      simp only [List.getD_cons_succ, List.getD_cons_zero]
      ring

theorem lookup_append_none {m : List (Nat × Nat)} (m2 : List (Nat × Nat)) {k : Nat}
    (h : m.lookup k = none) : (m ++ m2).lookup k = m2.lookup k := by
  induction m with
  | nil => rfl
  | cons kv m ih =>
    obtain ⟨k1, v1⟩ := kv
    rw [List.lookup_cons] at h
    rw [List.cons_append, List.lookup_cons]
    cases hk : (k == k1) with
    | true => rw [hk] at h; simp at h
    | false => rw [hk] at h; exact ih h

theorem lookup_append_some {m : List (Nat × Nat)} (m2 : List (Nat × Nat)) {k v : Nat}
    (h : m.lookup k = some v) : (m ++ m2).lookup k = some v := by
  induction m with
  | nil => simp at h
  | cons kv m ih =>
    obtain ⟨k1, v1⟩ := kv
    rw [List.lookup_cons] at h
    rw [List.cons_append, List.lookup_cons]
    cases hk : (k == k1) with
    | true => rw [hk] at h; simpa using h
    | false => rw [hk] at h; exact ih h

theorem upsert_append {k v : Nat} {m : List (Nat × Nat)} (h : m.lookup k = none) :
    upsert k v m = m ++ [(k, v)] := by
  unfold upsert
  rw [if_neg (by rw [h]; simp)]

theorem lookup_singleton_self (k v : Nat) : List.lookup k [(k, v)] = some v := by
  rw [List.lookup_cons]
  simp

/-- Scanning a line whose labels are pairwise distinct records only first
occurrences: the histogram is untouched and `first_seen` agrees with
`last_seen`. -/
theorem lineFold_nodup :
    ∀ (es : List (Nat × Nat)) (f : List Nat) (fs ls : List (Nat × Nat)),
    (es.map Prod.snd).Nodup →
    (∀ p ∈ es, ls.lookup p.2 = none ∧ fs.lookup p.2 = none) →
    (∀ kv ∈ ls, fs.lookup kv.1 = some kv.2) →
    (es.foldl (lineStep none) (f, fs, ls)).1 = f ∧
    (∀ kv ∈ (es.foldl (lineStep none) (f, fs, ls)).2.2,
      ((es.foldl (lineStep none) (f, fs, ls)).2.1.lookup kv.1) = some kv.2) := by
  intro es
  induction es with
  | nil =>
    intro f fs ls _ _ hinv
    exact ⟨rfl, hinv⟩
  | cons e es ih =>
    intro f fs ls hnd hfresh hinv
    rw [List.foldl_cons]
    have hbad : (none : Option Nat) ≠ some e.2 := by simp
    have hlk : ls.lookup e.2 = none := (hfresh e (List.mem_cons_self e es)).1
    have hlkf : fs.lookup e.2 = none := (hfresh e (List.mem_cons_self e es)).2
    have hstep : lineStep none (f, fs, ls) e = (f, upsert e.2 e.1 fs, upsert e.2 e.1 ls) := by
      unfold lineStep
      rw [if_pos hbad, hlk]
    rw [hstep, upsert_append hlk, upsert_append hlkf]
    have hnd' : (es.map Prod.snd).Nodup := by
      rw [List.map_cons, List.nodup_cons] at hnd
      exact hnd.2
    have hne : ∀ p ∈ es, p.2 ≠ e.2 := by
      intro p hp heq
      rw [List.map_cons, List.nodup_cons] at hnd
      exact hnd.1 (heq ▸ List.mem_map_of_mem Prod.snd hp)
    apply ih f (fs ++ [(e.2, e.1)]) (ls ++ [(e.2, e.1)]) hnd'
    · intro p hp
      have hnep := hne p hp
      have hsing : List.lookup p.2 [(e.2, e.1)] = none := by
        rw [List.lookup_cons]
        have : (p.2 == e.2) = false := by
          rw [beq_eq_false_iff_ne]
          exact hnep
        rw [this]
        rfl
      constructor
      · rw [lookup_append_none _ (hfresh p (List.mem_cons_of_mem e hp)).1]
        exact hsing
      · rw [lookup_append_none _ (hfresh p (List.mem_cons_of_mem e hp)).2]
        exact hsing
    · intro kv hkv
      rcases List.mem_append.1 hkv with hm | hm
      · exact lookup_append_some _ (hinv kv hm)
      · rw [List.mem_singleton] at hm
        subst hm
        rw [lookup_append_none _ hlkf]
        exact lookup_singleton_self e.2 e.1

/-- The wraparound loop over labels whose first and last occurrences agree
only increments bin `0`. -/
theorem wrapFold_zero (size : Nat) (hs : 0 < size) (fsm : List (Nat × Nat)) :
    ∀ (kvs : List (Nat × Nat)) (f : List Nat),
    (∀ kv ∈ kvs, (fsm.lookup kv.1).getD 0 = kv.2) →
    ∀ b, b ≠ 0 →
    (kvs.foldl (fun f kv =>
        f.set ((size + (fsm.lookup kv.1).getD 0 - kv.2) % size)
          (f.getD ((size + (fsm.lookup kv.1).getD 0 - kv.2) % size) 0 + 1)) f).getD b 0 =
      f.getD b 0 := by
  intro kvs
  induction kvs with
  | nil => intro f _ b _; rfl
  | cons kv kvs ih =>
    intro f hfl b hb
    rw [List.foldl_cons]
    have hgap : (size + (fsm.lookup kv.1).getD 0 - kv.2) % size = 0 := by
      rw [hfl kv (List.mem_cons_self kv kvs)]
      simp
    rw [ih _ (fun kv' h' => hfl kv' (List.mem_cons_of_mem kv h')) b hb, hgap,
      getD_set_ne _ _ _ _ _ hb]

/-- On a line with pairwise distinct labels (and no exclusions) the
periodic row scan only increments histogram bin `0`. -/
theorem processRow_nodup (size : Nat) (f line : List Nat) (hs : 0 < size)
    (hnd : line.Nodup) :
    ∀ b, b ≠ 0 → (processRow size none true f line).getD b 0 = f.getD b 0 := by
  intro b hb
  have hnd' : (line.enum.map Prod.snd).Nodup := by
    rw [List.enum_map_snd]
    exact hnd
  obtain ⟨hfst, hcons⟩ := lineFold_nodup line.enum f [] [] hnd'
    (fun p _ => ⟨rfl, rfl⟩) (fun kv h => absurd h (List.not_mem_nil kv))
  unfold processRow
  rw [if_pos rfl]
  have hwz := wrapFold_zero size hs
    (line.enum.foldl (lineStep none) (f, [], [])).2.1
    (line.enum.foldl (lineStep none) (f, [], [])).2.2
    (line.enum.foldl (lineStep none) (f, [], [])).1
    (fun kv hkv => by rw [hcons kv hkv]; rfl) b hb
  rw [hwz, hfst]

/-- The corner expression of `analysis` is the weighted fold of the gap
histogram claimed by the specification. -/
theorem corner_eq_sum (g : List ℚ) (size : Nat) (hlen : g.length = size) :
    corner_contribution g size =
      (∑ ell ∈ Finset.range (size / 2),
        (ell : ℚ) * (g.getD ell 0 + g.getD (size - 1 - ell) 0)) / (2 * size) := by
  unfold corner_contribution
  congr 1
  have hwl : ((List.range (size / 2)).map (Nat.cast : Nat → ℚ)).length = size / 2 := by
    rw [List.length_map, List.length_range]
  have hBl : (List.zipWith (· + ·) (g.take (size / 2))
      ((g.drop (size / 2)).reverse)).length = size / 2 := by
    rw [List.length_zipWith, List.length_take, List.length_reverse, List.length_drop, hlen]
    omega
  rw [dotQ_eq_sum _ _ (by rw [hwl, hBl]), hwl]
  apply Finset.sum_congr rfl
  intro ell hell
  rw [Finset.mem_range] at hell
  have hsz : 2 ≤ size := by omega
  have hw : ((List.range (size / 2)).map (Nat.cast : Nat → ℚ)).getD ell 0 = (ell : ℚ) := by
    rw [getD_map_q _ _ _ (by rw [List.length_range]; exact hell)]
    congr 1
    rw [List.getD_eq_getElem _ _ (by rw [List.length_range]; exact hell), List.getElem_range]
  rw [hw]
  congr 1
  have htl : ell < (g.take (size / 2)).length := by
    rw [List.length_take]
    omega
  have hrl : ell < ((g.drop (size / 2)).reverse).length := by
    rw [List.length_reverse, List.length_drop]
    omega
  rw [zipWith_getD _ _ _ _ 0 htl hrl]
  congr 1
  · rw [List.getD_eq_getElem _ _ htl, List.getElem_take,
      List.getD_eq_getElem _ _ (by omega)]
  · rw [List.getD_eq_getElem _ _ hrl, List.getElem_reverse, List.getElem_drop,
      List.getD_eq_getElem _ _ (by omega)]
    congr 1
    rw [List.length_drop, hlen]
    rw [List.length_reverse, List.length_drop, hlen] at hrl
    omega

theorem dotL_zero : ∀ (c v : List Nat), (∀ x ∈ c, x = 0) → dotL c v = 0 := by
  intro c
  induction c with
  | nil => intro v _; rfl
  | cons a as ih =>
    intro v h
    cases v with
    | nil => rfl
    | cons b bs =>
      show a * b + dotL as bs = 0
      rw [h a (List.mem_cons_self a as), ih bs (fun x hx => h x (List.mem_cons_of_mem a hx))]
      simp

/-- When every bond entry is active at every lattice coordinate, every site
is connected to site `0` by a path of bonds: any site with a nonzero
coordinate component has an active bond to a strictly smaller flat index. -/
theorem conn_all_to_zero {bonds : List (List Int)} {sizes : List Nat} {d : Nat} {bc : List Char}
    (hd : d = sizes.length) (hpos : ∀ s ∈ sizes, 0 < s)
    (hact : ∀ n, n < d → ∀ c ∈ coordsList sizes,
      (bonds.getD n []).getD (flatIdx sizes c) 0 ≠ 0) :
    ∀ i, i < sizes.prod → hkConnected bonds sizes d bc i 0 := by
  intro i
  induction i using Nat.strong_induction_on with
  | _ i ih =>
  intro hi
  have hp : i < (coordsList sizes).length := by
    rw [coordsList_length]
    exact hi
  obtain ⟨c, hc, hflat⟩ : ∃ c, c ∈ coordsList sizes ∧ flatIdx sizes c = i :=
    ⟨(coordsList sizes)[i], List.getElem_mem hp, coordsList_getElem_flatIdx sizes i hp⟩
  by_cases hall : ∀ x ∈ c, x = 0
  · have h0 : i = 0 := by
      rw [← hflat]
      exact dotL_zero c _ hall
    rw [h0]
    exact Conn.refl 0
  · push_neg at hall
    obtain ⟨x, hxmem, hxne⟩ := hall
    obtain ⟨n, hnlt, rfl⟩ := List.getElem_of_mem hxmem
    have hclen : c.length = sizes.length := coordsList_mem_length hc
    have hnd : n < d := by omega
    have hns : n < sizes.length := by omega
    have hcn : c.getD n 0 ≠ 0 := by
      rw [List.getD_eq_getElem _ _ hnlt]
      exact hxne
    have hx_lt : c.getD n 0 < sizes.getD n 0 := coordsList_getD_lt hc hns
    have hP : 0 < (sizes.drop (n+1)).prod := stride_pos hpos n
    have hshift := flatIdx_set (mem_coordsList.1 hc) n (c.getD n 0 - 1) hns
    have hge := flatIdx_ge (mem_coordsList.1 hc) n hns
    have hsub : (c.getD n 0 - 1) * (sizes.drop (n+1)).prod =
        c.getD n 0 * (sizes.drop (n+1)).prod - (sizes.drop (n+1)).prod := by
      rw [Nat.sub_one_mul]
    have hxP : (sizes.drop (n+1)).prod ≤ c.getD n 0 * (sizes.drop (n+1)).prod :=
      Nat.le_mul_of_pos_left _ (Nat.pos_of_ne_zero hcn)
    have hji : flatIdx sizes (c.set n (c.getD n 0 - 1)) < i := by
      rw [← hflat]
      omega
    have hedge : bondEdge bonds sizes d bc i (flatIdx sizes (c.set n (c.getD n 0 - 1))) :=
      ⟨c, n, hc, hnd, hact n hnd c hc, hflat.symm, Or.inl ⟨hcn, rfl⟩⟩
    exact Conn.trans (Conn.base hedge) (ih _ hji (by omega))

/-- On a state array that is `1` everywhere, every bond entry produced by
`get_bonds_nd` with `bond_type='one'` is active at every lattice
coordinate. -/
theorem bonds_one_all_active {state : List Int} {sizes : List Nat} {d : Nat}
    (hd : d = sizes.length) (hlen : state.length = sizes.prod)
    (hpos : ∀ s ∈ sizes, 0 < s)
    (hone : ∀ i, i < sizes.prod → state.getD i 0 = 1) :
    ∀ n, n < d → ∀ c ∈ coordsList sizes,
      ((get_bonds_nd state sizes d .one).getD n []).getD (flatIdx sizes c) 0 ≠ 0 := by
  intro n hn c hc
  have hp : flatIdx sizes c < sizes.prod := flatIdx_lt hc
  have hA : flatIdx sizes c < (npRoll state sizes n).length := by
    rw [npRoll_length]
    omega
  have hB : flatIdx sizes c < state.length := by omega
  have hone_eq : (get_bonds_nd state sizes d .one).getD n [] =
      List.zipWith (· * ·) (npRoll state sizes n) state := by
    show (((List.range d).map (fun k => npRoll state sizes k)).map
        (fun roll => List.zipWith (· * ·) roll state)).getD n [] = _
    rw [List.map_map]
    exact range_map_getD _ d n hn []
  rw [hone_eq, zipWith_getD _ _ _ _ _ hA hB, npRoll_getD state sizes n hc]
  have hposn : 0 < sizes.getD n 0 := by
    have hns : n < sizes.length := by omega
    rw [List.getD_eq_getElem _ _ hns]
    exact hpos _ (List.getElem_mem hns)
  have hroll : rollCoord sizes n c ∈ coordsList sizes := by
    unfold rollCoord
    exact coordsList_set_mem hc (Nat.mod_lt _ hposn)
  rw [hone _ (flatIdx_lt hroll), hone _ hp]
  decide

theorem dedup_replicate_succ (k c : Nat) : (List.replicate (k + 1) c).dedup = [c] := by
  induction k with
  | zero =>
    rw [show List.replicate 1 c = [c] from rfl,
      List.dedup_cons_of_not_mem (List.not_mem_nil c), List.dedup_nil]
  | succ k ih =>
    rw [List.replicate_succ,
      List.dedup_cons_of_mem (List.mem_replicate.2 ⟨Nat.succ_ne_zero k, rfl⟩)]
    exact ih

/-- `Counter(labels).most_common(1)[0]` on a constant label array returns
that label with the full length as its count. -/
theorem mostCommon1_replicate (N c : Nat) (h : 0 < N) :
    mostCommon1 (List.replicate N c) = (c, N) := by
  obtain ⟨k, rfl⟩ : ∃ k, N = k + 1 := ⟨N - 1, by omega⟩
  unfold mostCommon1
  rw [dedup_replicate_succ, List.foldl_cons, List.foldl_nil, List.count_replicate_self]
  show (if k + 1 > 0 then (c, k + 1) else (0, 0)) = (c, k + 1)
  rw [if_pos (Nat.succ_pos k)]

/-- Excluding the largest cluster on a single-cluster (constant) label
array replaces every site by its own flat index. -/
theorem excludeLC_replicate (N c : Nat) :
    excludeLC (List.replicate N c) c = List.range N := by
  apply List.ext_getElem
  · simp [excludeLC]
  · intro i h1 h2
    have hi : i < N := by
      rw [List.length_range] at h2
      exact h2
    have hlt : i < (List.replicate N c).length := by
      rw [List.length_replicate]
      exact hi
    have hgd := @excludeLC_getD (List.replicate N c) c i hlt
    have hrepi : (List.replicate N c).getD i 0 = c := by
      rw [List.getD_eq_getElem _ _ hlt, List.getElem_replicate]
    rw [hrepi, if_pos rfl] at hgd
    rw [List.getElem_range, ← List.getD_eq_getElem _ 0 h1]
    exact hgd

theorem gridRow_nodup {lab : List Nat} (hnd : lab.Nodup) (size row : Nat) :
    (gridRow lab size row).Nodup :=
  ((List.take_sublist _ _).trans (List.drop_sublist _ _)).nodup hnd

/-- A scan direction over a grid of pairwise-distinct labels leaves every
histogram bin other than `0` untouched. -/
theorem pass_nodup (size : Nat) (hs : 0 < size) {lab : List Nat} (hnd : lab.Nodup) :
    ∀ (rows : List Nat) (f : List Nat) (b : Nat), b ≠ 0 →
    (rows.foldl (fun f row => processRow size none true f (gridRow lab size row)) f).getD b 0 =
      f.getD b 0 := by
  intro rows
  induction rows with
  | nil => intro f b _; rfl
  | cons row rows ih =>
    intro f b hb
    rw [List.foldl_cons, ih _ b hb]
    exact processRow_nodup size f (gridRow lab size row) hs (gridRow_nodup hnd size row) b hb

theorem range_getD (n i : Nat) (hi : i < n) : (List.range n).getD i 0 = i := by
  rw [List.getD_eq_getElem _ _ (by simpa using hi), List.getElem_range]

/-- The transposed grid of the index grid `np.arange(size*size)` still has
pairwise-distinct entries. -/
theorem transposeGrid_range_nodup (size : Nat) :
    (transposeGrid (List.range (size * size)) size).Nodup := by
  rcases Nat.eq_zero_or_pos size with rfl | hs
  · simp [transposeGrid]
  unfold transposeGrid
  have heq : ∀ p ∈ List.range (size * size),
      (List.range (size * size)).getD (p % size * size + p / size) 0 =
        p % size * size + p / size := by
    intro p hp
    rw [List.mem_range] at hp
    have h1 : p % size < size := Nat.mod_lt _ hs
    have h2 : p / size < size := by
      rw [Nat.div_lt_iff_lt_mul hs]
      omega
    apply range_getD
    have h3 : (p % size + 1) * size ≤ size * size :=
      Nat.mul_le_mul_right size (by omega)
    have h4 : (p % size + 1) * size = p % size * size + size := by ring
    omega
  rw [List.map_congr_left heq]
  apply List.Nodup.map_on ?_ (List.nodup_range _)
  intro x hx y hy hxy
  rw [List.mem_range] at hx hy
  have hx2 : x / size < size := by
    rw [Nat.div_lt_iff_lt_mul hs]
    omega
  have hy2 : y / size < size := by
    rw [Nat.div_lt_iff_lt_mul hs]
    omega
  have hxd : (x % size * size + x / size) / size = x % size := by
    rw [Nat.mul_comm (x % size) size, Nat.mul_add_div hs, Nat.div_eq_of_lt hx2, Nat.add_zero]
  have hyd : (y % size * size + y / size) / size = y % size := by
    rw [Nat.mul_comm (y % size) size, Nat.mul_add_div hs, Nat.div_eq_of_lt hy2, Nat.add_zero]
  have hxm : (x % size * size + x / size) % size = x / size := by
    rw [Nat.mul_comm (x % size) size, Nat.mul_add_mod, Nat.mod_eq_of_lt hx2]
  have hym : (y % size * size + y / size) % size = y / size := by
    rw [Nat.mul_comm (y % size) size, Nat.mul_add_mod, Nat.mod_eq_of_lt hy2]
  have hdiv : x % size = y % size := by rw [← hxd, ← hyd, hxy]
  have hmod : x / size = y / size := by rw [← hxm, ← hym, hxy]
  have ex : size * (x / size) + x % size = x := Nat.div_add_mod x size
  have ey : size * (y / size) + y % size = y := Nat.div_add_mod y size
  rw [← ex, ← ey, hdiv, hmod]

theorem replicate_getD_zero : ∀ (n b : Nat), (List.replicate n (0 : Nat)).getD b 0 = 0 := by
  intro n
  induction n with
  | zero => intro b; rfl
  | succ n ih =>
    intro b
    cases b with
    | zero => rfl
    | succ b => exact ih b

theorem gapstat_pass_length (size : Nat) (bad : Option Nat) (hs : 0 < size)
    (lab f : List Nat) (hf : f.length = size) (hlab : lab.length = size * size) :
    (gapstatPass lab size bad true f).length = size := by
  obtain ⟨hlen, _⟩ := pass_sum size bad hs size lab f hf hlab
  unfold gapstatPass gridRow
  exact hlen

/-- Normal form of `get_gapstat_2d`: elementwise division of the integer
histogram by the normalization. -/
theorem get_gapstat_eq (lab : List Nat) (size : Nat) (bc : Char) (bd : Bool)
    (bad : Option Nat) :
    get_gapstat_2d lab size bc bd bad =
      (gapstatLoop lab size bc bd bad).1.map
        (fun (c : Nat) => (c : ℚ) / ((gapstatLoop lab size bc bd bad).2 : ℚ)) := by
  simp only [get_gapstat_2d]
  generalize (gapstatLoop lab size bc bd bad).1 = l
  induction l with
  | nil => rfl
  | cons a l ih =>
    show ((a : ℚ) / ((gapstatLoop lab size bc bd bad).2 : ℚ)) :: _ =
      ((a : ℚ) / ((gapstatLoop lab size bc bd bad).2 : ℚ)) :: _
    rw [List.cons_inj_right]
    exact ih

/-- The histogram and the gap statistics returned by `get_gapstat_2d` with
periodic rows and both directions have `size` bins. -/
theorem gapstat_len (lab : List Nat) (size : Nat) (hs : 0 < size)
    (hlab : lab.length = size * size) :
    (get_gapstat_2d lab size 'p' true none).length = size ∧
    (gapstatLoop lab size 'p' true none).1.length = size := by
  have hdec : (decide ('p' = 'p')) = true := by decide
  have htl : (transposeGrid lab size).length = size * size := by
    unfold transposeGrid
    rw [List.length_map, List.length_range]
  have h1 : (gapstatPass lab size none true (List.replicate size 0)).length = size :=
    gapstat_pass_length size none hs lab _ (List.length_replicate size 0) hlab
  have h2 : (gapstatPass (transposeGrid lab size) size none true
      (gapstatPass lab size none true (List.replicate size 0))).length = size :=
    gapstat_pass_length size none hs _ _ h1 htl
  have hfn : (gapstatLoop lab size 'p' true none).1.length = size := by
    show (gapstatPass (transposeGrid lab size) size none (decide ('p' = 'p'))
        (gapstatPass lab size none (decide ('p' = 'p')) (List.replicate size 0))).length = size
    rw [hdec]
    exact h2
  refine ⟨?_, hfn⟩
  rw [get_gapstat_eq, List.length_map]
  exact hfn

/-- On the index grid `np.arange(size*size)` (all labels distinct) the gap
statistics vanish on every bin other than `0`: in-row scans record only
first occurrences and each wraparound event lands in bin `size % size = 0`. -/
theorem gapstat_zero_bins (size : Nat) (hs : 0 < size) {b : Nat} (hb : b ≠ 0) :
    (get_gapstat_2d (List.range (size * size)) size 'p' true none).getD b 0 = 0 := by
  have hdec : (decide ('p' = 'p')) = true := by decide
  have hloop : (gapstatLoop (List.range (size * size)) size 'p' true none).1.getD b 0 = 0 := by
    show (gapstatPass (transposeGrid (List.range (size * size)) size) size none
        (decide ('p' = 'p'))
        (gapstatPass (List.range (size * size)) size none (decide ('p' = 'p'))
          (List.replicate size 0))).getD b 0 = 0
    rw [hdec]
    unfold gapstatPass
    rw [pass_nodup size hs (transposeGrid_range_nodup size) _ _ b hb,
      pass_nodup size hs (List.nodup_range (size * size)) _ _ b hb]
    exact replicate_getD_zero size b
  rw [get_gapstat_eq]
  by_cases hblt : b < (gapstatLoop (List.range (size * size)) size 'p' true none).1.length
  · rw [getD_map_q _ _ _ hblt, hloop]
    simp
  · rw [List.getD_eq_default _ _ (by rw [List.length_map]; omega)]

theorem claim_C9_witness :
    (excludeLC [0, 0, 2, 0] (mostCommon1 [0, 0, 2, 0]).1).getD 2 0 =
      (excludeLC [0, 0, 2, 0] (mostCommon1 [0, 0, 2, 0]).1).getD 3 0 ↔
      (List.getD [0, 0, 2, 0] 2 0 = List.getD [0, 0, 2, 0] 3 0 ∧
        List.getD [0, 0, 2, 0] 2 0 ≠ (mostCommon1 [0, 0, 2, 0]).1) :=
  claim_C9 [1, 1, 0, 1] 2 [0, 0, 2, 0] (by decide) (by decide) 2 3
    (by decide) (by decide) (by decide)

/-- C8: when the labeler run inside `analysis` succeeds, `analysis` returns
a result `r = (corner, gap_stat, LC_size)` whose corner contribution equals
the weighted sum `Σ_{ell=0}^{size/2-1} ell * (g(ell) + g(size-1-ell))`
divided by `2*size` over the returned gap statistics `g`; and on a fully
uniform occupancy grid (every bin occupied, hence a single cluster, which
the `LC='exclude'` option replaces by per-site indices so that no gaps
remain) the corner contribution evaluates to `0`.  The evenness hypothesis
mirrors that the numpy expression
`gap_stat[:size//2] + np.flip(gap_stat[size//2:])` requires the two slices
to have equal length (odd `size ≥ 3` raises a broadcast error). -/
theorem claim_C8 (binned : List Int) (size : Nat) (LC : String) (labels : List Nat)
    (hbin : binned.length = size * size) (hs : 0 < size) (hev : size % 2 = 0)
    (hrun : hoshen_kopelman_nd (get_bonds_nd binned [size, size] 2 .one) [size, size] 2
      ['p', 'p'] false = some labels) :
    ∃ r, analysis binned size LC = some r ∧
      r.1 = (∑ ell ∈ Finset.range (size / 2),
        (ell : ℚ) * (r.2.1.getD ell 0 + r.2.1.getD (size - 1 - ell) 0)) / (2 * size) ∧
      (binned = List.replicate (size * size) 1 ∧ LC = "exclude" → r.1 = 0) := by
  have hprod : List.prod [size, size] = size * size := by simp
  obtain ⟨l3, hrunR, hlen3, hb3, hroots3, hiff⟩ := hk_run (analysis_hkwf hbin hs)
  have h0 := hrunR false
  simp only [if_neg Bool.false_ne_true] at h0
  have heql : labels = l3 := by
    rw [hrun] at h0
    exact Option.some_inj.1 h0
  subst heql
  rw [hprod] at hlen3 hb3 hroots3 hiff
  have hana : analysis binned size LC = some
      (corner_contribution (get_gapstat_2d
          (if LC = "exclude" then excludeLC labels (mostCommon1 labels).1 else labels)
          size 'p' true none) size,
        get_gapstat_2d
          (if LC = "exclude" then excludeLC labels (mostCommon1 labels).1 else labels)
          size 'p' true none,
        (mostCommon1 labels).2) := by
    simp only [analysis]
    rw [hrun]
    rfl
  have hlab1 : (if LC = "exclude" then excludeLC labels (mostCommon1 labels).1
      else labels).length = size * size := by
    by_cases hL : LC = "exclude"
    · rw [if_pos hL]
      show (labels.enum.map _).length = _
      rw [List.length_map, List.enum_length, hlen3]
    · rw [if_neg hL]
      exact hlen3
  have hglen := (gapstat_len _ size hs hlab1).1
  refine ⟨_, hana, corner_eq_sum _ size hglen, ?_⟩
  rintro ⟨hb1, hLC⟩
  subst hb1
  subst hLC
  show corner_contribution (get_gapstat_2d
      (if ("exclude" : String) = "exclude"
        then excludeLC labels (mostCommon1 labels).1 else labels)
      size 'p' true none) size = 0
  have hifp : (if ("exclude" : String) = "exclude"
      then excludeLC labels (mostCommon1 labels).1 else labels) =
      excludeLC labels (mostCommon1 labels).1 := if_pos rfl
  rw [hifp]
  have h0N : 0 < size * size := Nat.mul_pos hs hs
  have hpos2 : ∀ s ∈ [size, size], 0 < s := by
    intro s hs'
    rcases List.mem_cons.1 hs' with rfl | hs''
    · exact hs
    · rcases List.mem_cons.1 hs'' with rfl | h
      · exact hs
      · exact absurd h (List.not_mem_nil s)
  have hone : ∀ i, i < List.prod [size, size] →
      (List.replicate (size * size) (1 : Int)).getD i 0 = 1 := by
    intro i hi
    rw [hprod] at hi
    rw [List.getD_eq_getElem _ _ (by rw [List.length_replicate]; exact hi),
      List.getElem_replicate]
  have hact := @bonds_one_all_active (List.replicate (size * size) (1 : Int))
    [size, size] 2 rfl
    (by rw [List.length_replicate, hprod]) hpos2 hone
  have hconn : ∀ i, i < size * size →
      hkConnected (get_bonds_nd (List.replicate (size * size) 1) [size, size] 2 .one)
        [size, size] 2 ['p', 'p'] i 0 := by
    intro i hi
    exact conn_all_to_zero rfl hpos2 hact i (by rw [hprod]; exact hi)
  have hstep0 : ∀ i, i < size * size → step labels i = step labels 0 := fun i hi =>
    (hiff i 0 hi h0N).2 (hconn i hi)
  obtain ⟨c0, hc0⟩ : ∃ c0, ∀ i, i < size * size → step labels i = c0 :=
    ⟨step labels 0, hstep0⟩
  have hrep : labels = List.replicate (size * size) c0 := by
    apply List.ext_getElem
    · rw [hlen3, List.length_replicate]
    · intro i h1 h2
      rw [List.getElem_replicate]
      calc labels[i] = labels.getD i 0 := (List.getD_eq_getElem labels 0 h1).symm
        _ = step labels i := getD_eq_step h1
        _ = c0 := hc0 i (by rw [← hlen3]; exact h1)
  have hmc : (mostCommon1 labels).1 = c0 := by
    rw [hrep, mostCommon1_replicate _ _ h0N]
  have hex : excludeLC labels (mostCommon1 labels).1 = List.range (size * size) := by
    rw [hmc, hrep]
    exact excludeLC_replicate _ _
  rw [hex]
  have hglen2 : (get_gapstat_2d (List.range (size * size)) size 'p' true none).length = size :=
    (gapstat_len _ size hs (by rw [List.length_range])).1
  rw [corner_eq_sum _ size hglen2]
  have hsum0 : (∑ ell ∈ Finset.range (size / 2), (ell : ℚ) *
      ((get_gapstat_2d (List.range (size * size)) size 'p' true none).getD ell 0 +
        (get_gapstat_2d (List.range (size * size)) size 'p' true none).getD
          (size - 1 - ell) 0)) = 0 := by
    apply Finset.sum_eq_zero
    intro ell hell
    rw [Finset.mem_range] at hell
    rcases Nat.eq_zero_or_pos ell with rfl | hpe
    · simp
    · rw [gapstat_zero_bins size hs (show ell ≠ 0 by omega),
        gapstat_zero_bins size hs (show size - 1 - ell ≠ 0 by omega)]
      simp
  rw [hsum0, zero_div]

theorem claim_C8_witness :
    ∃ r, analysis (List.replicate 4 1) 2 "exclude" = some r ∧
      r.1 = (∑ ell ∈ Finset.range (2 / 2),
        (ell : ℚ) * (r.2.1.getD ell 0 + r.2.1.getD (2 - 1 - ell) 0)) / (2 * 2) ∧
      (List.replicate 4 (1 : Int) = List.replicate (2 * 2) 1 ∧ "exclude" = "exclude" →
        r.1 = 0) :=
  claim_C8 (List.replicate 4 1) 2 "exclude" [0, 0, 0, 0] (by decide) (by decide) (by decide)
    (by decide)

end AT
